import Mathlib

/-!
# Verification of the CodeMax Dev run orchestrator

Shallow embedding of the run orchestrator (`startCodeMaxDevRun`,
`stopCodeMaxDevRun`, `approveCodeMaxDevTool`, `handleStdoutLine`,
`waitForApproval`, `cleanupRun` and the sanitizer helpers `scrubString`,
`looksSensitiveKey`, `scrubValue`, `isDangerousShellCommand`,
`getShellCommandFromArgs`) together with proofs of the specified
admission, cleanup, approval and sanitization properties.

JavaScript strings are modelled as Lean `String` (lists of characters),
JSON-like event payloads as the inductive `JVal`, JavaScript `Map`s as
association lists with unique keys, and the single-threaded event loop as
a small-step operational semantics whose atomic steps are the
synchronous sections of the source (a start request, the processing of
one gated stdout line, a process-exit callback, a stop request, a spawn
error callback, an approval timer firing, and a decision request).
-/

namespace CodeMax

/-! ## JavaScript string primitives -/

/-- The whitespace characters recognised by JavaScript's `\s` class and
`String.prototype.trim` (ASCII whitespace, no-break space, line/paragraph
separators and the BOM). -/
def isSpCh (c : Char) : Bool :=
  c = ' ' || c = '\t' || c = '\n' || c = '\r' || c = '\x0b' || c = '\x0c' ||
  c = '\u00A0' || c = '\u2028' || c = '\u2029' || c = '\uFEFF'

/-- JavaScript `\w` (word character) class: `[A-Za-z0-9_]`. -/
def isWordCh (c : Char) : Bool :=
  ('a' ≤ c && c ≤ 'z') || ('A' ≤ c && c ≤ 'Z') || ('0' ≤ c && c ≤ '9') || c = '_'

/-- `String.prototype.trim`. -/
def jsTrim (s : String) : String :=
  ⟨((s.data.dropWhile isSpCh).reverse.dropWhile isSpCh).reverse⟩

/-- `String.prototype.toLowerCase` (ASCII case folding, which is all the
source exercises). -/
def jsLower (s : String) : String :=
  ⟨s.data.map Char.toLower⟩

/-- Case-insensitive match of a (lower-case) pattern `p` against a prefix
of `l`: the test performed at one position by a `/..../i` regex scan. -/
def lpref : List Char → List Char → Bool
  | [], _ => true
  | _ :: _, [] => false
  | a :: p, b :: l => (b.toLower = a) && lpref p l

/-- Case-sensitive prefix test (for `String.prototype.includes`). -/
def cpref : List Char → List Char → Bool
  | [], _ => true
  | _ :: _, [] => false
  | a :: p, b :: l => (b = a) && cpref p l

/-- `hay.includes(needle)`. -/
def jsIncludes (hay needle : String) : Bool :=
  go hay.data
where
  go : List Char → Bool
    | [] => cpref needle.data []
    | c :: cs => cpref needle.data (c :: cs) || go cs

/-! ## `scrubString`: `s.replace(/gemini/gi, 'CodeMax Dev')` -/

/-- The brand pattern `gemini` matched case-insensitively. -/
def gemPat : List Char := ['g', 'e', 'm', 'i', 'n', 'i']

/-- The public replacement text `CodeMax Dev` (as its character list). -/
def brandRepl : List Char :=
  ['C', 'o', 'd', 'e', 'M', 'a', 'x', ' ', 'D', 'e', 'v']

/-- Global left-to-right case-insensitive replacement of `gemini`, exactly
as `String.prototype.replace` with a `/gemini/gi` regex scans: at each
position, if the pattern matches, emit the replacement and continue after
the match, otherwise keep one character and continue. -/
def replGemini : List Char → List Char
  | c1 :: c2 :: c3 :: c4 :: c5 :: c6 :: rest =>
    if lpref gemPat (c1 :: c2 :: c3 :: c4 :: c5 :: c6 :: rest) then
      brandRepl ++ replGemini rest
    else
      c1 :: replGemini (c2 :: c3 :: c4 :: c5 :: c6 :: rest)
  | c :: cs => c :: replGemini cs
  | [] => []

/-- `scrubString` from the source. -/
def scrubString (s : String) : String :=
  ⟨replGemini s.data⟩

/-- A case-insensitive occurrence of `gemini` somewhere in the text. -/
def hasGem : List Char → Bool
  | [] => false
  | c :: cs => lpref gemPat (c :: cs) || hasGem cs

/-! ## JSON-like values and `scrubValue` -/

/-- JSON-like runtime values flowing through the sanitizer. Numbers are
carried as integers; the sanitizer treats every number opaquely, so the
carrier of numerics is irrelevant to the properties proved here. -/
inductive JVal where
  | null : JVal
  | bool (b : Bool) : JVal
  | num (n : Int) : JVal
  | str (s : String) : JVal
  | arr (xs : List JVal) : JVal
  | obj (kvs : List (String × JVal)) : JVal

/-- `looksSensitiveKey`: the regex
`/(api_?key|token|authorization|secret|password|headers|env)$/i`, i.e. the
lower-cased key ends with one of the listed words. -/
def looksSensitiveKey (key : String) : Bool :=
  ["api_key", "apikey", "token", "authorization", "secret", "password",
   "headers", "env"].any (fun w => w.data.isSuffixOf (jsLower key).data)

/-- The body of `scrubValue`, with the depth counter re-expressed as the
remaining fuel `7 - depth` so that the recursion is structural: the source
returns the value unchanged once `depth > 6`, which is exactly fuel `0`. -/
def scrubGo : Nat → JVal → JVal
  | 0, v => v
  | n + 1, v =>
    match v with
    | .str s => .str (scrubString s)
    | .arr xs => .arr ((xs.take 200).map (scrubGo n))
    | .obj kvs =>
      .obj (kvs.filterMap fun kv =>
        if looksSensitiveKey kv.1 then none
        else if kv.1 = "model" then some (kv.1, .str "codemax-dev")
        else some (kv.1, scrubGo n kv.2))
    | v => v

/-- `scrubValue(value, depth)` from the source: recursion bounded at depth
6; strings are brand-scrubbed; arrays are truncated to 200 elements and
recursed; objects drop sensitive keys, rewrite a key literally named
`model` to the alias `codemax-dev`, and recurse into other values. -/
def scrubValue (v : JVal) (depth : Nat := 0) : JVal :=
  scrubGo (7 - depth) v

/-- `sanitizeEvent` on a well-formed payload (the `catch` branch of the
source is unreachable for total Lean values). -/
def sanitizeEvent (event : JVal) : JVal :=
  scrubValue event 0

/-! ## Association-list maps (JavaScript `Map`s and plain objects, whose
keys are unique) -/

/-- `m.get(k)`. -/
def aget {α : Type} (l : List (String × α)) (k : String) : Option α :=
  match l with
  | [] => none
  | (k', v) :: t => if k' = k then some v else aget t k

/-- `m.set(k, v)`: replace the binding if the key is present, else add it. -/
def aset {α : Type} (l : List (String × α)) (k : String) (v : α) :
    List (String × α) :=
  match l with
  | [] => [(k, v)]
  | (k', v') :: t => if k' = k then (k, v) :: t else (k', v') :: aset t k v

/-- `m.delete(k)` (keys are unique, so removing every binding of `k`
equals removing the one binding). -/
def adel {α : Type} (l : List (String × α)) (k : String) : List (String × α) :=
  match l with
  | [] => []
  | (k', v) :: t => if k' = k then adel t k else (k', v) :: adel t k

/-! ## Danger classifier: `isDangerousShellCommand`

Each regex of the source is translated to a matcher that is run at every
position of the (trimmed, lower-cased) command text.  JavaScript word
boundaries `\b` are tests on the characters adjacent to the position:
a boundary holds where exactly one of the two neighbouring characters
(string edges counting as non-word) is a word character. -/

/-- Consume a literal. -/
def dropLit : List Char → List Char → Option (List Char)
  | [], l => some l
  | _ :: _, [] => none
  | a :: p, b :: l => if b = a then dropLit p l else none

/-- Consume `\s*`. -/
def dropSp0 (l : List Char) : List Char := l.dropWhile isSpCh

/-- Consume `\s+` (greedily; every continuation in the source's patterns
starts with a non-space character, so greedy matching is exact). -/
def dropSp1 : List Char → Option (List Char)
  | [] => none
  | c :: cs => if isSpCh c then some (dropSp0 cs) else none

/-- `\b` after a word character: the next character is absent or non-word. -/
def noWordNext : List Char → Bool
  | [] => true
  | c :: _ => !isWordCh c

/-- `\b` before a word character: the previous character is absent or
non-word. -/
def prevNonWord : Option Char → Bool
  | none => true
  | some c => !isWordCh c

/-- `\b` before a non-word character: the previous character must be a
word character. -/
def prevIsWord : Option Char → Bool
  | none => false
  | some c => isWordCh c

/-- `/\brm\s+-rf\b/`. -/
def pRmRf (prev : Option Char) (l : List Char) : Bool :=
  prevNonWord prev &&
  ((do
    let r1 ← dropLit "rm".data l
    let r2 ← dropSp1 r1
    let r3 ← dropLit "-rf".data r2
    some (noWordNext r3)).getD false)

/-- `/\bWORD\b/` for a literal word made of word characters
(`mkfs`, `shutdown`, `reboot`, `poweroff`). -/
def pBareWord (w : String) (prev : Option Char) (l : List Char) : Bool :=
  prevNonWord prev &&
  ((do
    let r ← dropLit w.data l
    some (noWordNext r)).getD false)

/-- `/\bdd\s+if=/`. -/
def pDdIf (prev : Option Char) (l : List Char) : Bool :=
  prevNonWord prev &&
  ((do
    let r1 ← dropLit "dd".data l
    let r2 ← dropSp1 r1
    let _ ← dropLit "if=".data r2
    some true).getD false)

/-- The fork-bomb pattern `/:\(\)\s*\{\s*:\s*\|\s*:\s*;\s*\}\s*;/`. -/
def pForkBomb (_prev : Option Char) (l : List Char) : Bool :=
  ((do
    let r ← dropLit ":()".data l
    let r ← dropLit ['\x7b'] (dropSp0 r)
    let r ← dropLit [':'] (dropSp0 r)
    let r ← dropLit ['|'] (dropSp0 r)
    let r ← dropLit [':'] (dropSp0 r)
    let r ← dropLit [';'] (dropSp0 r)
    let r ← dropLit ['\x7d'] (dropSp0 r)
    let _ ← dropLit [';'] (dropSp0 r)
    some true).getD false)

/-- `/>\s*\/dev\/sd[a-z]\b/`. -/
def pRedirDev (_prev : Option Char) (l : List Char) : Bool :=
  ((do
    let r ← dropLit ['>'] l
    let r ← dropLit "/dev/sd".data (dropSp0 r)
    match r with
    | c :: rest => some (('a' ≤ c && c ≤ 'z') && noWordNext rest)
    | [] => some false).getD false)

/-- `/\b\/dev\/sd[a-z]\b/`: `/` is not a word character, so the leading
`\b` requires the preceding character to be a word character. -/
def pDevSd (prev : Option Char) (l : List Char) : Bool :=
  prevIsWord prev &&
  ((do
    let r ← dropLit "/dev/sd".data l
    match r with
    | c :: rest => some (('a' ≤ c && c ≤ 'z') && noWordNext rest)
    | [] => some false).getD false)

/-- Run a positional matcher at every position of the text (`RegExp.test`),
tracking the preceding character for word-boundary tests. -/
def searchP (f : Option Char → List Char → Bool) (l : List Char) : Bool :=
  go none l
where
  go : Option Char → List Char → Bool
    | prev, [] => f prev []
    | prev, c :: cs => f prev (c :: cs) || go (some c) cs

/-- `isDangerousShellCommand` from the source: trim and lower-case the
command, empty is never dangerous, otherwise test the fixed pattern list. -/
def isDangerousShellCommand (cmd : String) : Bool :=
  let s := jsLower (jsTrim cmd)
  if s = "" then false
  else
    searchP pRmRf s.data || searchP (pBareWord "mkfs") s.data ||
    searchP pDdIf s.data || searchP (pBareWord "shutdown") s.data ||
    searchP (pBareWord "reboot") s.data || searchP (pBareWord "poweroff") s.data ||
    searchP pForkBomb s.data || searchP pRedirDev s.data || searchP pDevSd s.data

/-! ## `getShellCommandFromArgs` -/

mutual

/-- JavaScript `String(v)` conversion.  Arrays stringify as their
comma-joined elements with `null` members becoming the empty string;
objects stringify as `"[object Object]"`. -/
def jsToString : JVal → String
  | .null => "null"
  | .bool b => if b then "true" else "false"
  | .num n => toString n
  | .str s => s
  | .arr xs => String.intercalate "," (jsArrElems xs)
  | .obj _ => "[object Object]"

/-- The element strings of `Array.prototype.toString`: `null` members
contribute the empty string. -/
def jsArrElems : List JVal → List String
  | [] => []
  | .null :: xs => "" :: jsArrElems xs
  | x :: xs => jsToString x :: jsArrElems xs

end

/-- `getShellCommandFromArgs`: a bare string is the command; an array is
its members converted with `String` and joined with spaces; an object is
probed for the candidate fields in order; everything else yields `''`. -/
def getShellCommandFromArgs (args : JVal) : String :=
  match args with
  | .str s => s
  | .arr xs => String.intercalate " " (xs.map jsToString)
  | .obj kvs => findCandidate kvs ["command", "cmd", "shell", "script", "args", "argv"]
  | _ => ""
where
  findCandidate (kvs : List (String × JVal)) : List String → String
    | [] => ""
    | k :: ks =>
      match aget kvs k with
      | some (.str s) => s
      | some (.arr xs) => String.intercalate " " (xs.map jsToString)
      | _ => findCandidate kvs ks

/-! ## The run orchestrator -/

/-- `DEFAULT_GATED_TOOLS`. -/
def defaultGatedTools : List String :=
  ["run_shell_command", "shell", "run_shell", "web_fetch", "google_web_search"]

/-- `normalizeToolName`: `String(name || '').trim().toLowerCase()`. -/
def normalizeToolName (name : String) : String :=
  jsLower (jsTrim name)

/-- One pending approval: the data held by the suspended
`handleStdoutLine` continuation at its `await` (the normalized tool name
and the raw arguments, consulted by the post-decision danger gate). -/
structure PendInfo where
  toolNorm : String
  args : JVal

/-- One run object (the closure state created by `startCodeMaxDevRun`). -/
structure RunObj where
  userId : String
  gatedTools : List String
  pending : List (String × PendInfo)
  ended : Bool

/-- Server configuration: the global ceiling `MAX_CONCURRENT` and the two
credential environment variables. -/
structure Cfg where
  maxConcurrent : Nat
  geminiKey : String
  googleKey : String

/-- The module-level mutable state: the heap of every run object created
so far (handler closures keep them alive), the key set of the global
`runs` map, and the `userActiveRun` map. -/
structure St where
  runObjs : List (String × RunObj)
  registry : List String
  userActive : List (String × String)

/-- The state at module load: all tables empty. -/
def St.init : St := ⟨[], [], []⟩

/-- `runs.get(rid)`: a run is in the map exactly while its key is
registered; the object itself lives on the heap. -/
def runsGet (s : St) (rid : String) : Option RunObj :=
  if rid ∈ s.registry then aget s.runObjs rid else none

/-- Observable effects: events emitted to the caller (`status`, `error`,
`event`, `approval`), visibility of a pending registration, resumption of
a suspended pipeline with a decision, registry cleanup, the one-time
completion callback, the termination signal, and writes to the child's
stdin. -/
inductive Action where
  | status (rid s : String)
  | error (rid msg : String)
  | event (rid : String)
  | registered (rid tid : String)
  | approvalReq (rid tid : String)
  | resolved (rid tid decision : String)
  | onEnd (rid : String)
  | cleanup (rid : String)
  | sigterm (rid : String)
  | stdin (rid tok : String)
deriving DecidableEq

/-- The structured result `{ ok: true }` / `{ ok: false, error: e }`. -/
inductive OpRes where
  | ok : OpRes
  | err (e : String) : OpRes
deriving DecidableEq

/-- The instant a pending approval resolves with `decision`, the suspended
`handleStdoutLine` continuation resumes: for a shell-like tool the command
is re-checked against the danger classifier — a match overrides the
decision, emitting an error and writing the deny token `n` — otherwise the
written token encodes the decision (`y` for approve, `n` otherwise). -/
def resumeActions (rid tid : String) (info : PendInfo) (decision : String) :
    List Action :=
  .resolved rid tid decision ::
  (if jsIncludes info.toolNorm "shell" &&
      isDangerousShellCommand (getShellCommandFromArgs info.args) then
    [.error rid "Blocked dangerous shell command.", .stdin rid "n\n"]
  else
    [.stdin rid (if decision = "approve" then "y\n" else "n\n")])

/-- `cleanupRun`: remove the run from the global index and, if the owner's
active-run claim still names this run, release the claim. -/
def cleanupRun (s : St) (rid : String) : St × List Action :=
  match runsGet s rid with
  | none => (s, [])
  | some r =>
    ({ s with
        registry := s.registry.erase rid
        userActive :=
          if aget s.userActive r.userId = some rid then adel s.userActive r.userId
          else s.userActive },
     [.cleanup rid])

/-- The admission and registration section of `startCodeMaxDevRun` (its
synchronous body up to `return runId`); `hasEmit` stands for
`typeof emit === 'function'`.  On success the run is registered and the
two lifecycle events `started` and `running` are emitted. -/
def startRun (cfg : Cfg) (s : St) (userId task : String) (hasEmit : Bool)
    (gatedTools : Option (List String)) (rid : String) :
    St × List Action × Except String String :=
  if userId = "" then (s, [], .error "Missing userId")
  else if jsTrim task = "" then (s, [], .error "Missing task")
  else if !hasEmit then (s, [], .error "Missing emit")
  else if jsTrim cfg.geminiKey = "" && jsTrim cfg.googleKey = "" then
    (s, [], .error "Missing server API key. Set GEMINI_API_KEY (or GOOGLE_API_KEY) on the backend.")
  else if s.registry.length ≥ cfg.maxConcurrent then
    (s, [], .error "Too many concurrent runs. Try again in a moment.")
  else if (aget s.userActive userId).isSome then
    (s, [], .error "You already have an active run. Stop it before starting a new one.")
  else
    let run : RunObj :=
      { userId := userId
        gatedTools := (gatedTools.map (·.map normalizeToolName)).getD defaultGatedTools
        pending := []
        ended := false }
    ({ runObjs := aset s.runObjs rid run
       registry := rid :: s.registry
       userActive := aset s.userActive userId rid },
     [.status rid "started", .status rid "running"], .ok rid)

/-- The `proc.on('exit')` handler: only the first terminal transition
emits the `done` status, cleans up and fires the completion callback. -/
def procExit (s : St) (rid : String) : St × List Action :=
  match aget s.runObjs rid with
  | none => (s, [])
  | some r =>
    if r.ended then (s, [])
    else
      let s1 : St := { s with runObjs := aset s.runObjs rid { r with ended := true } }
      let c := cleanupRun s1 rid
      (c.1, [.status rid "done"] ++ c.2 ++ [.onEnd rid])

/-- `stopCodeMaxDevRun`: unknown run → `not_found`; already ended → `ok`
with no effect; otherwise mark the run ended, force-resolve every pending
approval to deny (the suspended continuations resume once the synchronous
section returns), emit the `stopped` status, signal the process, clean up
and fire the completion callback. -/
def stopRun (s : St) (rid _reason : String) : St × List Action × OpRes :=
  match runsGet s rid with
  | none => (s, [], .err "not_found")
  | some r =>
    if r.ended then (s, [], .ok)
    else
      let s1 : St :=
        { s with runObjs := aset s.runObjs rid { r with ended := true, pending := [] } }
      let c := cleanupRun s1 rid
      let resumes := (r.pending.map fun kv => resumeActions rid kv.1 kv.2 "deny").flatten
      (c.1, [.status rid "stopped", .sigterm rid] ++ c.2 ++ [.onEnd rid] ++ resumes, .ok)

/-- The `proc.on('error')` handler (spawn failure): emit an `error` event,
then perform exactly an explicit stop with reason `spawn_error`. -/
def spawnErr (s : St) (rid msg : String) : St × List Action :=
  let p := stopRun s rid "spawn_error"
  (p.1, .error rid msg :: p.2.1)

/-- The gating section of `handleStdoutLine` for a decoded line whose
`extractToolUse` result is `(toolName, tid, args)`: the sanitized event is
always emitted; for a gated tool the pending approval is registered (the
synchronous part of `waitForApproval`) strictly before the `approval`
request event is emitted, and the pipeline then suspends. -/
def gatedLine (s : St) (rid toolName tid : String) (args : JVal) :
    St × List Action :=
  match aget s.runObjs rid with
  | none => (s, [])
  | some r =>
    let tn := normalizeToolName toolName
    if tn ∈ r.gatedTools then
      let r' : RunObj := { r with pending := aset r.pending tid ⟨tn, args⟩ }
      ({ s with runObjs := aset s.runObjs rid r' },
       [.event rid, .registered rid tid, .approvalReq rid tid])
    else (s, [.event rid])

/-- The `waitForApproval` timeout firing for a still-armed timer: the
entry is removed and the suspended pipeline resumes with deny.  A timer
whose entry was already resolved was cancelled (`clearTimeout`) and never
fires, hence the no-op branch. -/
def timeoutFire (s : St) (rid tid : String) : St × List Action :=
  match aget s.runObjs rid with
  | none => (s, [])
  | some r =>
    match aget r.pending tid with
    | none => (s, [])
    | some info =>
      ({ s with runObjs := aset s.runObjs rid { r with pending := adel r.pending tid } },
       resumeActions rid tid info "deny")

/-- `approveCodeMaxDevTool`: unknown run → `not_found`; no pending entry
under the call id → `not_pending`; otherwise the resolver cancels the
timer, removes the entry and resumes the pipeline with the normalized
decision (any value other than `"approve"` collapses to `"deny"`). -/
def approveTool (s : St) (rid tid decision : String) :
    St × List Action × OpRes :=
  match runsGet s rid with
  | none => (s, [], .err "not_found")
  | some r =>
    match aget r.pending tid with
    | none => (s, [], .err "not_pending")
    | some info =>
      let d := if decision = "approve" then "approve" else "deny"
      ({ s with runObjs := aset s.runObjs rid { r with pending := adel r.pending tid } },
       resumeActions rid tid info d, .ok)

/-! ## Event-loop interleavings -/

/-- The atomic event-loop tasks of the orchestrator. -/
inductive Op where
  | start (userId task : String) (hasEmit : Bool)
      (gatedTools : Option (List String)) (rid : String)
  | gated (rid toolName tid : String) (args : JVal)
  | exited (rid : String)
  | stopReq (rid reason : String)
  | spawnFail (rid msg : String)
  | timedOut (rid tid : String)
  | decision (rid tid d : String)

/-- Apply one event-loop task to the state. -/
def applyOp (cfg : Cfg) (s : St) : Op → St
  | .start u task he gt rid => (startRun cfg s u task he gt rid).1
  | .gated rid tn tid args => (gatedLine s rid tn tid args).1
  | .exited rid => (procExit s rid).1
  | .stopReq rid reason => (stopRun s rid reason).1
  | .spawnFail rid msg => (spawnErr s rid msg).1
  | .timedOut rid tid => (timeoutFire s rid tid).1
  | .decision rid tid d => (approveTool s rid tid d).1

/-- Apply a sequence of event-loop tasks. -/
def runOps (cfg : Cfg) (s : St) : List Op → St
  | [] => s
  | op :: ops => runOps cfg (applyOp cfg s op) ops

/-- Reachability: any interleaving of event-loop tasks from the state at
module load.  Run identifiers handed to `start` are fresh
(`crypto.randomUUID` collisions are assumed impossible). -/
inductive Reach (cfg : Cfg) : St → Prop where
  | init : Reach cfg St.init
  | start {s} (u task : String) (he : Bool) (gt : Option (List String))
      (rid : String) (h : Reach cfg s) (hfresh : aget s.runObjs rid = none) :
      Reach cfg (startRun cfg s u task he gt rid).1
  | gated {s} (rid tn tid : String) (args : JVal) (h : Reach cfg s) :
      Reach cfg (gatedLine s rid tn tid args).1
  | exited {s} (rid : String) (h : Reach cfg s) :
      Reach cfg (procExit s rid).1
  | stopReq {s} (rid reason : String) (h : Reach cfg s) :
      Reach cfg (stopRun s rid reason).1
  | spawnFail {s} (rid msg : String) (h : Reach cfg s) :
      Reach cfg (spawnErr s rid msg).1
  | timedOut {s} (rid tid : String) (h : Reach cfg s) :
      Reach cfg (timeoutFire s rid tid).1
  | decision {s} (rid tid d : String) (h : Reach cfg s) :
      Reach cfg (approveTool s rid tid d).1

/-- The registry invariant: registered runs are live heap objects whose
owner's active-run claim points back at them, every active-run claim
points at a registered run it owns, ended runs are deregistered, and the
registry respects the global ceiling. -/
structure Inv (cfg : Cfg) (s : St) : Prop where
  nodup : s.registry.Nodup
  ceiling : s.registry.length ≤ cfg.maxConcurrent
  reg_live : ∀ rid ∈ s.registry, ∃ r, aget s.runObjs rid = some r ∧
      r.ended = false ∧ aget s.userActive r.userId = some rid
  claim_reg : ∀ u rid, aget s.userActive u = some rid →
      rid ∈ s.registry ∧ ∃ r, aget s.runObjs rid = some r ∧ r.userId = u
  live_reg : ∀ rid r, aget s.runObjs rid = some r → r.ended = false →
      rid ∈ s.registry

/-! ## Map lemmas -/

theorem aget_aset_self {α : Type} (l : List (String × α)) (k : String) (v : α) :
    aget (aset l k v) k = some v := by
  induction l with
  | nil => simp [aset, aget]
  | cons kv t ih =>
    obtain ⟨k', v'⟩ := kv
    by_cases h : k' = k
    · simp [aset, aget, h]
    · simp [aset, aget, h, ih]

theorem aget_aset_ne {α : Type} (l : List (String × α)) {k k' : String} (v : α)
    (h : k' ≠ k) : aget (aset l k v) k' = aget l k' := by
  induction l with
  | nil => simp [aset, aget, Ne.symm h]
  | cons kv t ih =>
    obtain ⟨k1, v1⟩ := kv
    by_cases hk : k1 = k
    · subst hk
      simp [aset, aget, Ne.symm h]
    · simp [aset, aget, hk, ih]

theorem aget_adel_self {α : Type} (l : List (String × α)) (k : String) :
    aget (adel l k) k = none := by
  induction l with
  | nil => simp [adel, aget]
  | cons kv t ih =>
    obtain ⟨k1, v1⟩ := kv
    by_cases h : k1 = k
    · simpa [adel, h] using ih
    · simpa [adel, h, aget] using ih

theorem aget_adel_ne {α : Type} (l : List (String × α)) {k k' : String}
    (h : k' ≠ k) : aget (adel l k) k' = aget l k' := by
  induction l with
  | nil => simp [adel, aget]
  | cons kv t ih =>
    obtain ⟨k1, v1⟩ := kv
    by_cases hk : k1 = k
    · subst hk
      simp [adel, aget, Ne.symm h, ih]
    · simp [adel, aget, hk, ih]

/-! ## The decision request: claims C6, C5, C3 -/

/-- **C6** — `approveCodeMaxDevTool` returns `not_found` for an unknown
run identifier and `not_pending` for a known run without a pending entry
under the call identifier, in both cases leaving the state untouched and
emitting nothing; otherwise it removes the pending entry, resumes the
suspended pipeline with `approve` exactly when the supplied decision is
the string `"approve"` and with `deny` for every other value, and
returns success. -/
theorem claim_C6 (s : St) (rid tid dec : String) :
    (runsGet s rid = none →
      approveTool s rid tid dec = (s, [], .err "not_found")) ∧
    (∀ r, runsGet s rid = some r → aget r.pending tid = none →
      approveTool s rid tid dec = (s, [], .err "not_pending")) ∧
    (∀ r info, runsGet s rid = some r → aget r.pending tid = some info →
      (approveTool s rid tid dec).2.2 = .ok ∧
      (approveTool s rid tid dec).1 =
        { s with runObjs := aset s.runObjs rid { r with pending := adel r.pending tid } } ∧
      aget (adel r.pending tid) tid = none ∧
      (approveTool s rid tid dec).2.1 =
        resumeActions rid tid info (if dec = "approve" then "approve" else "deny")) := by
  refine ⟨?_, ?_, ?_⟩
  · intro h
    simp [approveTool, h]
  · intro r hr hp
    simp [approveTool, hr, hp]
  · intro r info hr hp
    refine ⟨?_, ?_, aget_adel_self _ _, ?_⟩ <;> simp [approveTool, hr, hp]

/-- Witness for C6: the three outcomes at concrete states. -/
theorem claim_C6_witness :
    (approveTool St.init "r1" "t1" "approve" = (St.init, [], .err "not_found")) ∧
    (approveTool ⟨[("r1", ⟨"u1", ["shell"], [], false⟩)], ["r1"], [("u1", "r1")]⟩
        "r1" "t1" "x" =
      (⟨[("r1", ⟨"u1", ["shell"], [], false⟩)], ["r1"], [("u1", "r1")]⟩, [],
        .err "not_pending")) ∧
    ((approveTool
        ⟨[("r1", ⟨"u1", ["web_fetch"], [("t1", ⟨"web_fetch", .null⟩)], false⟩)],
          ["r1"], [("u1", "r1")]⟩ "r1" "t1" "nonsense").2.2 = .ok) := by
  refine ⟨(claim_C6 St.init "r1" "t1" "approve").1 rfl,
    (claim_C6 ⟨[("r1", ⟨"u1", ["shell"], [], false⟩)], ["r1"], [("u1", "r1")]⟩
      "r1" "t1" "x").2.1 ⟨"u1", ["shell"], [], false⟩ rfl rfl, ?_⟩
  exact ((claim_C6
    ⟨[("r1", ⟨"u1", ["web_fetch"], [("t1", ⟨"web_fetch", .null⟩)], false⟩)],
      ["r1"], [("u1", "r1")]⟩ "r1" "t1" "nonsense").2.2
    ⟨"u1", ["web_fetch"], [("t1", ⟨"web_fetch", .null⟩)], false⟩
    ⟨"web_fetch", .null⟩ rfl rfl).1

/-- **C5** — if a pending approval times out, the entry is removed and the
suspended pipeline resumes with deny; a decision arriving afterwards
returns the `not_pending` error and changes nothing, and a second timeout
firing is a no-op: each pending approval resolves at most once. -/
theorem claim_C5 (s : St) (rid tid : String) (r : RunObj) (info : PendInfo)
    (hreg : rid ∈ s.registry) (hr : aget s.runObjs rid = some r)
    (hp : aget r.pending tid = some info) (d : String) :
    ((timeoutFire s rid tid).2.head? = some (.resolved rid tid "deny")) ∧
    (∃ r1, aget (timeoutFire s rid tid).1.runObjs rid = some r1 ∧
      aget r1.pending tid = none) ∧
    (approveTool (timeoutFire s rid tid).1 rid tid d =
      ((timeoutFire s rid tid).1, [], .err "not_pending")) ∧
    (timeoutFire (timeoutFire s rid tid).1 rid tid =
      ((timeoutFire s rid tid).1, [])) := by
  have hstate : (timeoutFire s rid tid).1 =
      { s with runObjs := aset s.runObjs rid { r with pending := adel r.pending tid } } := by
    simp [timeoutFire, hr, hp]
  refine ⟨?_, ?_, ?_, ?_⟩
  · simp [timeoutFire, hr, hp, resumeActions]
  · exact ⟨_, by rw [hstate]; exact aget_aset_self _ _ _, by
      show aget (adel r.pending tid) tid = none
      exact aget_adel_self _ _⟩
  · rw [hstate]
    simp [approveTool, runsGet, hreg, aget_aset_self, aget_adel_self]
  · rw [hstate]
    simp [timeoutFire, aget_aset_self, aget_adel_self]

/-- Witness for C5 at a concrete state with one pending approval. -/
theorem claim_C5_witness :
    ((timeoutFire
        ⟨[("r1", ⟨"u1", ["shell"], [("t1", ⟨"shell", .str "ls"⟩)], false⟩)],
          ["r1"], [("u1", "r1")]⟩ "r1" "t1").2.head? =
      some (.resolved "r1" "t1" "deny")) ∧
    (approveTool
        (timeoutFire
          ⟨[("r1", ⟨"u1", ["shell"], [("t1", ⟨"shell", .str "ls"⟩)], false⟩)],
            ["r1"], [("u1", "r1")]⟩ "r1" "t1").1 "r1" "t1" "approve").2.2 =
      .err "not_pending" := by
  have h := claim_C5
    ⟨[("r1", ⟨"u1", ["shell"], [("t1", ⟨"shell", .str "ls"⟩)], false⟩)],
      ["r1"], [("u1", "r1")]⟩ "r1" "t1" ⟨"u1", ["shell"], [("t1", ⟨"shell", .str "ls"⟩)], false⟩
    ⟨"shell", .str "ls"⟩ (by simp) rfl rfl "approve"
  exact ⟨h.1, by rw [h.2.2.1]⟩

/-- **C3** — when the pending approval's tool name contains `shell` and
its extracted command text matches a catastrophic pattern, the resolution
of the approval (here: an explicit decision) emits the
`Blocked dangerous shell command.` error and writes the deny token `n` to
the process's stdin, whatever the human decision was — in particular for
`"approve"`. -/
theorem claim_C3 (s : St) (rid tid : String) (r : RunObj) (info : PendInfo)
    (hreg : rid ∈ s.registry) (hr : aget s.runObjs rid = some r)
    (hp : aget r.pending tid = some info)
    (hshell : jsIncludes info.toolNorm "shell" = true)
    (hdanger : isDangerousShellCommand (getShellCommandFromArgs info.args) = true)
    (dec : String) :
    (approveTool s rid tid dec).2.1 =
      [.resolved rid tid (if dec = "approve" then "approve" else "deny"),
       .error rid "Blocked dangerous shell command.", .stdin rid "n\n"] ∧
    (approveTool s rid tid dec).2.2 = .ok := by
  constructor <;> simp [approveTool, runsGet, hreg, hr, hp, resumeActions, hshell, hdanger]

/-- Witness for C3: an approved `run_shell_command` invocation whose
command is `rm -rf /` is forced to deny with an error. -/
theorem claim_C3_witness :
    (approveTool
        ⟨[("r1", ⟨"u1", ["run_shell_command"],
            [("t1", ⟨"run_shell_command", .obj [("command", .str "rm -rf /")]⟩)], false⟩)],
          ["r1"], [("u1", "r1")]⟩ "r1" "t1" "approve").2.1 =
      [.resolved "r1" "t1" "approve",
       .error "r1" "Blocked dangerous shell command.", .stdin "r1" "n\n"] := by
  have h := claim_C3
    ⟨[("r1", ⟨"u1", ["run_shell_command"],
        [("t1", ⟨"run_shell_command", .obj [("command", .str "rm -rf /")]⟩)], false⟩)],
      ["r1"], [("u1", "r1")]⟩ "r1" "t1"
    ⟨"u1", ["run_shell_command"],
      [("t1", ⟨"run_shell_command", .obj [("command", .str "rm -rf /")]⟩)], false⟩
    ⟨"run_shell_command", .obj [("command", .str "rm -rf /")]⟩
    (by simp) rfl rfl rfl rfl "approve"
  simpa using h.1

/-! ## Termination paths: claims C9 and C2 -/

/-- Evaluation of `stopCodeMaxDevRun` on a live registered run. -/
theorem stopRun_live (s : St) (rid reason : String) (r : RunObj)
    (hreg : rid ∈ s.registry) (hr : aget s.runObjs rid = some r)
    (hend : r.ended = false) :
    stopRun s rid reason =
      ({ runObjs := aset s.runObjs rid { r with ended := true, pending := [] }
         registry := s.registry.erase rid
         userActive :=
           if aget s.userActive r.userId = some rid then adel s.userActive r.userId
           else s.userActive },
       .status rid "stopped" :: .sigterm rid :: .cleanup rid :: .onEnd rid ::
         (r.pending.map fun kv => resumeActions rid kv.1 kv.2 "deny").flatten,
       .ok) := by
  simp [stopRun, runsGet, hreg, hr, hend, cleanupRun, aget_aset_self]

/-- Evaluation of the `proc.on('exit')` handler on a live registered run. -/
theorem procExit_live (s : St) (rid : String) (r : RunObj)
    (hreg : rid ∈ s.registry) (hr : aget s.runObjs rid = some r)
    (hend : r.ended = false) :
    procExit s rid =
      ({ runObjs := aset s.runObjs rid { r with ended := true }
         registry := s.registry.erase rid
         userActive :=
           if aget s.userActive r.userId = some rid then adel s.userActive r.userId
           else s.userActive },
       [.status rid "done", .cleanup rid, .onEnd rid]) := by
  simp [procExit, hr, hend, cleanupRun, runsGet, hreg, aget_aset_self]

/-- **C9** — on spawn failure the run emits the `error` event and then
performs exactly the explicit-stop cleanup, without waiting for the
process: the terminal `stopped` status and the completion callback fire,
every pending approval is force-resolved to deny, and the run is removed
from the global run index and from the caller's active-run claim. -/
theorem claim_C9 (s : St) (rid msg : String) (r : RunObj)
    (hreg : rid ∈ s.registry) (hr : aget s.runObjs rid = some r)
    (hend : r.ended = false) (hnd : s.registry.Nodup) :
    ((spawnErr s rid msg).2.head? = some (.error rid msg)) ∧
    (.status rid "stopped") ∈ (spawnErr s rid msg).2 ∧
    (.cleanup rid) ∈ (spawnErr s rid msg).2 ∧
    (.onEnd rid) ∈ (spawnErr s rid msg).2 ∧
    (∀ tid info, (tid, info) ∈ r.pending →
      (.resolved rid tid "deny") ∈ (spawnErr s rid msg).2) ∧
    rid ∉ (spawnErr s rid msg).1.registry ∧
    aget (spawnErr s rid msg).1.userActive r.userId ≠ some rid ∧
    (∃ r1, aget (spawnErr s rid msg).1.runObjs rid = some r1 ∧
      r1.ended = true ∧ r1.pending = []) := by
  have hs : spawnErr s rid msg =
      ((stopRun s rid "spawn_error").1,
        .error rid msg :: (stopRun s rid "spawn_error").2.1) := rfl
  rw [hs, stopRun_live s rid "spawn_error" r hreg hr hend]
  refine ⟨rfl, by simp, by simp, by simp, ?_, ?_, ?_, ?_⟩
  · intro tid info hmem
    simp only [List.mem_cons]
    refine .inr (.inr (.inr (.inr (.inr ?_))))
    exact List.mem_flatten.mpr
      ⟨resumeActions rid tid info "deny",
        List.mem_map_of_mem _ hmem, by simp [resumeActions]⟩
  · exact hnd.not_mem_erase
  · by_cases hua : aget s.userActive r.userId = some rid
    · simp [hua, aget_adel_self]
    · simp [hua]
  · exact ⟨_, aget_aset_self _ _ _, rfl, rfl⟩

/-- Witness for C9 at a concrete state with one pending approval. -/
theorem claim_C9_witness :
    ((spawnErr
        ⟨[("r1", ⟨"u1", ["shell"], [("t1", ⟨"shell", .str "ls"⟩)], false⟩)],
          ["r1"], [("u1", "r1")]⟩ "r1" "boom").2.head? =
      some (.error "r1" "boom")) ∧
    (.resolved "r1" "t1" "deny") ∈
      (spawnErr
        ⟨[("r1", ⟨"u1", ["shell"], [("t1", ⟨"shell", .str "ls"⟩)], false⟩)],
          ["r1"], [("u1", "r1")]⟩ "r1" "boom").2 ∧
    "r1" ∉ (spawnErr
        ⟨[("r1", ⟨"u1", ["shell"], [("t1", ⟨"shell", .str "ls"⟩)], false⟩)],
          ["r1"], [("u1", "r1")]⟩ "r1" "boom").1.registry := by
  have h := claim_C9
    ⟨[("r1", ⟨"u1", ["shell"], [("t1", ⟨"shell", .str "ls"⟩)], false⟩)],
      ["r1"], [("u1", "r1")]⟩ "r1" "boom"
    ⟨"u1", ["shell"], [("t1", ⟨"shell", .str "ls"⟩)], false⟩
    (by simp) rfl rfl (by simp)
  exact ⟨h.1, h.2.2.2.2.1 "t1" ⟨"shell", .str "ls"⟩ (by simp), h.2.2.2.2.2.1⟩

/-- The two termination triggers for one run that can race: the external
process exiting and an explicit stop request. -/
inductive TermOp where
  | exitEv : TermOp
  | stopEv (reason : String) : TermOp

/-- Apply one termination trigger for run `rid`. -/
def applyTermOp (s : St) (rid : String) : TermOp → St × List Action
  | .exitEv => procExit s rid
  | .stopEv reason => ((stopRun s rid reason).1, (stopRun s rid reason).2.1)

/-- Apply a sequence of termination triggers, concatenating the traces. -/
def runTermOps (s : St) (rid : String) : List TermOp → St × List Action
  | [] => (s, [])
  | op :: ops =>
    ((runTermOps (applyTermOp s rid op).1 rid ops).1,
     (applyTermOp s rid op).2 ++ (runTermOps (applyTermOp s rid op).1 rid ops).2)

/-- Terminal `status` events (`done` or `stopped`) for run `rid`. -/
def isTermStatus (rid : String) : Action → Bool
  | .status r st => decide (r = rid) && (decide (st = "done") || decide (st = "stopped"))
  | _ => false

/-- Completion-callback invocations for run `rid`. -/
def isOnEndEv (rid : String) : Action → Bool
  | .onEnd r => decide (r = rid)
  | _ => false

/-- Registry-cleanup executions for run `rid`. -/
def isCleanupEv (rid : String) : Action → Bool
  | .cleanup r => decide (r = rid)
  | _ => false

/-- Pipeline resumptions emit no status, completion or cleanup actions. -/
theorem resumeActions_free (rid0 rid tid : String) (info : PendInfo) (d : String) :
    ∀ a ∈ resumeActions rid tid info d,
      isTermStatus rid0 a = false ∧ isOnEndEv rid0 a = false ∧
      isCleanupEv rid0 a = false := by
  intro a ha
  simp only [resumeActions, List.mem_cons] at ha
  rcases ha with rfl | ha
  · exact ⟨rfl, rfl, rfl⟩
  · split at ha
    · rcases List.mem_cons.mp ha with rfl | ha2
      · exact ⟨rfl, rfl, rfl⟩
      · rcases List.mem_singleton.mp ha2 with rfl
        exact ⟨rfl, rfl, rfl⟩
    · rcases List.mem_singleton.mp ha with rfl
      exact ⟨rfl, rfl, rfl⟩

/-- The flattened deny-resumptions of a stop contribute nothing to status,
completion or cleanup counts. -/
theorem countP_resumes_zero (rid : String) (pend : List (String × PendInfo))
    (q : Action → Bool)
    (hq : ∀ tid info (a : Action), a ∈ resumeActions rid tid info "deny" → q a = false) :
    ((pend.map fun kv => resumeActions rid kv.1 kv.2 "deny").flatten).countP q = 0 := by
  refine List.countP_eq_zero.mpr ?_
  intro a ha
  obtain ⟨l, hl, hal⟩ := List.mem_flatten.mp ha
  obtain ⟨kv, hkv, rfl⟩ := List.mem_map.mp hl
  simp [hq kv.1 kv.2 a hal]

/-- The first termination trigger on a live run emits exactly one terminal
status, one completion callback and one cleanup, and leaves the run ended
and deregistered. -/
theorem applyTermOp_live (s : St) (rid : String) (r : RunObj) (op : TermOp)
    (hreg : rid ∈ s.registry) (hr : aget s.runObjs rid = some r)
    (hend : r.ended = false) (hnd : s.registry.Nodup) :
    ((applyTermOp s rid op).2.countP (isTermStatus rid) = 1 ∧
     (applyTermOp s rid op).2.countP (isOnEndEv rid) = 1 ∧
     (applyTermOp s rid op).2.countP (isCleanupEv rid) = 1) ∧
    (∃ r1, aget (applyTermOp s rid op).1.runObjs rid = some r1 ∧ r1.ended = true) ∧
    rid ∉ (applyTermOp s rid op).1.registry ∧
    (applyTermOp s rid op).1.registry.Nodup := by
  cases op with
  | exitEv =>
    rw [show applyTermOp s rid .exitEv = procExit s rid from rfl,
        procExit_live s rid r hreg hr hend]
    refine ⟨⟨?_, ?_, ?_⟩, ⟨_, aget_aset_self _ _ _, rfl⟩, hnd.not_mem_erase, hnd.erase _⟩ <;>
      simp [List.countP_cons, isTermStatus, isOnEndEv, isCleanupEv]
  | stopEv reason =>
    rw [show applyTermOp s rid (.stopEv reason) =
          ((stopRun s rid reason).1, (stopRun s rid reason).2.1) from rfl,
        stopRun_live s rid reason r hreg hr hend]
    have z1 := countP_resumes_zero rid r.pending (isTermStatus rid)
      (fun tid info a ha => ((resumeActions_free rid rid tid info "deny" a ha).1))
    have z2 := countP_resumes_zero rid r.pending (isOnEndEv rid)
      (fun tid info a ha => ((resumeActions_free rid rid tid info "deny" a ha).2.1))
    have z3 := countP_resumes_zero rid r.pending (isCleanupEv rid)
      (fun tid info a ha => ((resumeActions_free rid rid tid info "deny" a ha).2.2))
    refine ⟨⟨?_, ?_, ?_⟩, ⟨_, aget_aset_self _ _ _, rfl⟩, hnd.not_mem_erase, hnd.erase _⟩ <;>
      simp [List.countP_cons, isTermStatus, isOnEndEv, isCleanupEv, z1, z2, z3]

/-- Any further termination trigger on an ended, deregistered run is a
strict no-op. -/
theorem runTermOps_dead (s : St) (rid : String) (r : RunObj)
    (hr : aget s.runObjs rid = some r) (he : r.ended = true)
    (hnr : rid ∉ s.registry) (ops : List TermOp) :
    runTermOps s rid ops = (s, []) := by
  induction ops with
  | nil => rfl
  | cons op rest ih =>
    have hstep : applyTermOp s rid op = (s, []) := by
      cases op with
      | exitEv => simp [applyTermOp, procExit, hr, he]
      | stopEv reason => simp [applyTermOp, stopRun, runsGet, hnr]
    simp [runTermOps, hstep, ih]

/-- **C2** — under any interleaving of the process-exit callback and one
or more explicit stop requests for a live run, exactly one terminal
status event is emitted, the run is removed from the global run index and
the caller's active-run claim exactly once (one cleanup execution), and
the one-time completion callback is invoked exactly once; afterwards the
run is no longer registered. -/
theorem claim_C2 (s : St) (rid : String) (r : RunObj)
    (hreg : rid ∈ s.registry) (hr : aget s.runObjs rid = some r)
    (hend : r.ended = false) (hnd : s.registry.Nodup)
    (ops : List TermOp) (hne : ops ≠ []) :
    (runTermOps s rid ops).2.countP (isTermStatus rid) = 1 ∧
    (runTermOps s rid ops).2.countP (isOnEndEv rid) = 1 ∧
    (runTermOps s rid ops).2.countP (isCleanupEv rid) = 1 ∧
    rid ∉ (runTermOps s rid ops).1.registry := by
  cases ops with
  | nil => exact absurd rfl hne
  | cons op rest =>
    obtain ⟨⟨h1, h2, h3⟩, ⟨r1, hr1, he1⟩, hnr, hnd'⟩ :=
      applyTermOp_live s rid r op hreg hr hend hnd
    have hrest := runTermOps_dead (applyTermOp s rid op).1 rid r1 hr1 he1 hnr rest
    simp [runTermOps, hrest, h1, h2, h3, hnr]

/-- Witness for C2: a process exit racing two stop requests on a live
concrete run produces exactly one terminal status, completion callback
and cleanup. -/
theorem claim_C2_witness :
    (runTermOps
        ⟨[("r1", ⟨"u1", ["shell"], [("t1", ⟨"shell", .str "ls"⟩)], false⟩)],
          ["r1"], [("u1", "r1")]⟩ "r1"
        [.exitEv, .stopEv "user", .stopEv "again"]).2.countP (isTermStatus "r1") = 1 ∧
    (runTermOps
        ⟨[("r1", ⟨"u1", ["shell"], [("t1", ⟨"shell", .str "ls"⟩)], false⟩)],
          ["r1"], [("u1", "r1")]⟩ "r1"
        [.exitEv, .stopEv "user", .stopEv "again"]).2.countP (isOnEndEv "r1") = 1 ∧
    (runTermOps
        ⟨[("r1", ⟨"u1", ["shell"], [("t1", ⟨"shell", .str "ls"⟩)], false⟩)],
          ["r1"], [("u1", "r1")]⟩ "r1"
        [.exitEv, .stopEv "user", .stopEv "again"]).2.countP (isCleanupEv "r1") = 1 := by
  have h := claim_C2
    ⟨[("r1", ⟨"u1", ["shell"], [("t1", ⟨"shell", .str "ls"⟩)], false⟩)],
      ["r1"], [("u1", "r1")]⟩ "r1"
    ⟨"u1", ["shell"], [("t1", ⟨"shell", .str "ls"⟩)], false⟩
    (by simp) rfl rfl (by simp)
    [.exitEv, .stopEv "user", .stopEv "again"] (by simp)
  exact ⟨h.1, h.2.1, h.2.2.1⟩

/-! ## The registry invariant: claim C1 -/

theorem inv_init (cfg : Cfg) : Inv cfg St.init := by
  refine ⟨List.nodup_nil, Nat.zero_le _, ?_, ?_, ?_⟩ <;> intros <;> simp_all [St.init, aget]

/-- Updating only the pending table of a heap object preserves the
registry invariant. -/
theorem inv_pending_update (cfg : Cfg) (s : St) (rid : String) (r : RunObj)
    (pend : List (String × PendInfo)) (hInv : Inv cfg s)
    (hr : aget s.runObjs rid = some r) :
    Inv cfg { s with runObjs := aset s.runObjs rid { r with pending := pend } } := by
  obtain ⟨hnd, hce, hrl, hcr, hlr⟩ := hInv
  refine ⟨hnd, hce, ?_, ?_, ?_⟩
  · intro rid' hrid'
    obtain ⟨r0, hr0, he0, hua0⟩ := hrl rid' hrid'
    by_cases h : rid' = rid
    · subst h
      rw [hr] at hr0
      injection hr0 with h0
      subst h0
      exact ⟨{ r with pending := pend }, aget_aset_self _ _ _, he0, hua0⟩
    · exact ⟨r0, by rw [aget_aset_ne _ _ h]; exact hr0, he0, hua0⟩
  · intro u rid' hu
    obtain ⟨hmem, r0, hr0, hu0⟩ := hcr u rid' hu
    by_cases h : rid' = rid
    · subst h
      rw [hr] at hr0
      injection hr0 with h0
      subst h0
      exact ⟨hmem, { r with pending := pend }, aget_aset_self _ _ _, hu0⟩
    · exact ⟨hmem, r0, by rw [aget_aset_ne _ _ h]; exact hr0, hu0⟩
  · intro rid' r' hr' he'
    by_cases h : rid' = rid
    · subst h
      rw [aget_aset_self] at hr'
      injection hr' with h0
      rw [← h0] at he'
      exact hlr rid' r hr he'
    · rw [aget_aset_ne _ _ h] at hr'
      exact hlr _ _ hr' he'

/-- Marking a registered live run as ended and running `cleanupRun` on it
preserves the registry invariant: the run leaves the global index and the
owner's active-run claim together. -/
theorem inv_end_state (cfg : Cfg) (s : St) (rid : String) (r r' : RunObj)
    (hInv : Inv cfg s) (hr : aget s.runObjs rid = some r) (hend : r.ended = false)
    (he' : r'.ended = true) :
    Inv cfg { runObjs := aset s.runObjs rid r'
              registry := s.registry.erase rid
              userActive :=
                if aget s.userActive r.userId = some rid then adel s.userActive r.userId
                else s.userActive } := by
  obtain ⟨hnd, hce, hrl, hcr, hlr⟩ := hInv
  have hreg : rid ∈ s.registry := hlr rid r hr hend
  obtain ⟨r0, hr0, he0, hua0⟩ := hrl rid hreg
  rw [hr] at hr0
  injection hr0 with h0
  subst h0
  rw [if_pos hua0]
  refine ⟨hnd.erase _, le_trans (List.erase_sublist _ _).length_le hce, ?_, ?_, ?_⟩
  · intro rid' hrid'
    obtain ⟨hne', hmem'⟩ := hnd.mem_erase_iff.mp hrid'
    obtain ⟨r1, hr1, he1, hua1⟩ := hrl rid' hmem'
    have husr : r1.userId ≠ r.userId := by
      intro hcontra
      rw [hcontra, hua0] at hua1
      injection hua1 with h2
      exact hne' h2.symm
    exact ⟨r1, by rw [aget_aset_ne _ _ hne']; exact hr1, he1,
      by rw [aget_adel_ne _ husr]; exact hua1⟩
  · intro u rid' hu
    by_cases husr : u = r.userId
    · rw [husr, aget_adel_self] at hu
      exact absurd hu (by simp)
    · rw [aget_adel_ne _ husr] at hu
      obtain ⟨hmem', r1, hr1, hu1⟩ := hcr u rid' hu
      have hne' : rid' ≠ rid := by
        intro hcontra
        subst hcontra
        rw [hr] at hr1
        injection hr1 with h2
        subst h2
        exact husr hu1.symm
      exact ⟨List.mem_erase_of_ne hne' |>.mpr hmem', r1,
        by rw [aget_aset_ne _ _ hne']; exact hr1, hu1⟩
  · intro rid' r1 hr1 he1
    by_cases h : rid' = rid
    · subst h
      rw [aget_aset_self] at hr1
      injection hr1 with h2
      rw [← h2] at he1
      rw [he'] at he1
      exact absurd he1 (by simp)
    · rw [aget_aset_ne _ _ h] at hr1
      exact List.mem_erase_of_ne h |>.mpr (hlr _ _ hr1 he1)

/-- Admitting a fresh run under the ceiling with a free caller preserves
the registry invariant. -/
theorem inv_insert_run (cfg : Cfg) (s : St) (rid u : String) (gts : List String)
    (hInv : Inv cfg s) (hfresh : aget s.runObjs rid = none)
    (hlen : s.registry.length < cfg.maxConcurrent)
    (hua : (aget s.userActive u).isSome = false) :
    Inv cfg { runObjs := aset s.runObjs rid ⟨u, gts, [], false⟩
              registry := rid :: s.registry
              userActive := aset s.userActive u rid } := by
  obtain ⟨hnd, hce, hrl, hcr, hlr⟩ := hInv
  have hnotmem : rid ∉ s.registry := by
    intro hmem
    obtain ⟨r0, hr0, -, -⟩ := hrl rid hmem
    rw [hfresh] at hr0
    exact absurd hr0 (by simp)
  refine ⟨hnd.cons hnotmem, by simpa using hlen, ?_, ?_, ?_⟩
  · intro rid' hrid'
    rcases List.mem_cons.mp hrid' with rfl | hmem'
    · exact ⟨⟨u, gts, [], false⟩, aget_aset_self _ _ _, rfl, aget_aset_self _ _ _⟩
    · obtain ⟨r0, hr0, he0, hua0⟩ := hrl rid' hmem'
      have hne : rid' ≠ rid := by
        intro hc
        rw [hc, hfresh] at hr0
        exact absurd hr0 (by simp)
      have husr : r0.userId ≠ u := by
        intro hc
        rw [hc] at hua0
        rw [hua0] at hua
        exact absurd hua (by simp)
      exact ⟨r0, by rw [aget_aset_ne _ _ hne]; exact hr0, he0,
        by rw [aget_aset_ne _ _ husr]; exact hua0⟩
  · intro u' rid'' hu''
    by_cases hueq : u' = u
    · rw [hueq, aget_aset_self] at hu''
      injection hu'' with h0
      subst h0
      exact ⟨List.mem_cons_self _ _, ⟨u, gts, [], false⟩, aget_aset_self _ _ _, hueq.symm⟩
    · rw [aget_aset_ne _ _ hueq] at hu''
      obtain ⟨hm, r1, hr1, hu1⟩ := hcr u' rid'' hu''
      have hne : rid'' ≠ rid := by
        intro hc
        rw [hc, hfresh] at hr1
        exact absurd hr1 (by simp)
      exact ⟨List.mem_cons_of_mem _ hm, r1,
        by rw [aget_aset_ne _ _ hne]; exact hr1, hu1⟩
  · intro rid' r1 hr1 he1
    by_cases h : rid' = rid
    · subst h
      exact List.mem_cons_self _ _
    · rw [aget_aset_ne _ _ h] at hr1
      exact List.mem_cons_of_mem _ (hlr _ _ hr1 he1)

/-- `startCodeMaxDevRun` preserves the registry invariant. -/
theorem inv_startRun (cfg : Cfg) (s : St) (u task : String) (he : Bool)
    (gt : Option (List String)) (rid : String) (hInv : Inv cfg s)
    (hfresh : aget s.runObjs rid = none) :
    Inv cfg (startRun cfg s u task he gt rid).1 := by
  unfold startRun
  split_ifs with h1 h2 h3 h4 h5 h6
  · exact hInv
  · exact hInv
  · exact hInv
  · exact hInv
  · exact hInv
  · exact hInv
  · exact inv_insert_run cfg s rid u _ hInv hfresh (by omega) (by simpa using h6)

/-- `handleStdoutLine`'s gating section preserves the registry invariant. -/
theorem inv_gatedLine (cfg : Cfg) (s : St) (rid tn tid : String) (args : JVal)
    (hInv : Inv cfg s) : Inv cfg (gatedLine s rid tn tid args).1 := by
  cases hget : aget s.runObjs rid with
  | none =>
    have h : (gatedLine s rid tn tid args).1 = s := by simp [gatedLine, hget]
    rw [h]; exact hInv
  | some r =>
    by_cases hg : normalizeToolName tn ∈ r.gatedTools
    · have h : (gatedLine s rid tn tid args).1 =
          { s with
            runObjs :=
              aset s.runObjs rid
                (RunObj.mk r.userId r.gatedTools
                  (aset r.pending tid ⟨normalizeToolName tn, args⟩) r.ended) } := by
        simp [gatedLine, hget, hg]
      rw [h]
      exact inv_pending_update cfg s rid r _ hInv hget
    · have h : (gatedLine s rid tn tid args).1 = s := by simp [gatedLine, hget, hg]
      rw [h]; exact hInv

/-- An approval timeout preserves the registry invariant. -/
theorem inv_timeoutFire (cfg : Cfg) (s : St) (rid tid : String)
    (hInv : Inv cfg s) : Inv cfg (timeoutFire s rid tid).1 := by
  cases hget : aget s.runObjs rid with
  | none =>
    have h : (timeoutFire s rid tid).1 = s := by simp [timeoutFire, hget]
    rw [h]; exact hInv
  | some r =>
    cases hp : aget r.pending tid with
    | none =>
      have h : (timeoutFire s rid tid).1 = s := by simp [timeoutFire, hget, hp]
      rw [h]; exact hInv
    | some info =>
      have h : (timeoutFire s rid tid).1 =
          { s with
            runObjs :=
              aset s.runObjs rid
                (RunObj.mk r.userId r.gatedTools (adel r.pending tid) r.ended) } := by
        simp [timeoutFire, hget, hp]
      rw [h]
      exact inv_pending_update cfg s rid r _ hInv hget

/-- A decision request preserves the registry invariant. -/
theorem inv_approveTool (cfg : Cfg) (s : St) (rid tid d : String)
    (hInv : Inv cfg s) : Inv cfg (approveTool s rid tid d).1 := by
  cases hget : runsGet s rid with
  | none =>
    have h : (approveTool s rid tid d).1 = s := by simp [approveTool, hget]
    rw [h]; exact hInv
  | some r =>
    have hr : aget s.runObjs rid = some r := by
      by_cases hmem : rid ∈ s.registry
      · simpa [runsGet, hmem] using hget
      · simp [runsGet, hmem] at hget
    cases hp : aget r.pending tid with
    | none =>
      have h : (approveTool s rid tid d).1 = s := by simp [approveTool, hget, hp]
      rw [h]; exact hInv
    | some info =>
      have h : (approveTool s rid tid d).1 =
          { s with
            runObjs :=
              aset s.runObjs rid
                (RunObj.mk r.userId r.gatedTools (adel r.pending tid) r.ended) } := by
        simp [approveTool, hget, hp]
      rw [h]
      exact inv_pending_update cfg s rid r _ hInv hr

/-- A process exit preserves the registry invariant. -/
theorem inv_procExit (cfg : Cfg) (s : St) (rid : String)
    (hInv : Inv cfg s) : Inv cfg (procExit s rid).1 := by
  cases hget : aget s.runObjs rid with
  | none =>
    have h : (procExit s rid).1 = s := by simp [procExit, hget]
    rw [h]; exact hInv
  | some r =>
    cases hend : r.ended with
    | true =>
      have h : (procExit s rid).1 = s := by simp [procExit, hget, hend]
      rw [h]; exact hInv
    | false =>
      have hreg : rid ∈ s.registry := hInv.live_reg rid r hget hend
      rw [procExit_live s rid r hreg hget hend]
      exact inv_end_state cfg s rid r _ hInv hget hend rfl

/-- A stop request preserves the registry invariant. -/
theorem inv_stopRun (cfg : Cfg) (s : St) (rid reason : String)
    (hInv : Inv cfg s) : Inv cfg (stopRun s rid reason).1 := by
  cases hget : runsGet s rid with
  | none =>
    have h : (stopRun s rid reason).1 = s := by simp [stopRun, hget]
    rw [h]; exact hInv
  | some r =>
    have hmem : rid ∈ s.registry := by
      by_cases hmem : rid ∈ s.registry
      · exact hmem
      · simp [runsGet, hmem] at hget
    have hr : aget s.runObjs rid = some r := by simpa [runsGet, hmem] using hget
    cases hend : r.ended with
    | true =>
      have h : (stopRun s rid reason).1 = s := by simp [stopRun, hget, hend]
      rw [h]; exact hInv
    | false =>
      rw [stopRun_live s rid reason r hmem hr hend]
      exact inv_end_state cfg s rid r _ hInv hr hend rfl

/-- A spawn failure preserves the registry invariant. -/
theorem inv_spawnErr (cfg : Cfg) (s : St) (rid msg : String)
    (hInv : Inv cfg s) : Inv cfg (spawnErr s rid msg).1 :=
  inv_stopRun cfg s rid "spawn_error" hInv

/-- Every reachable orchestrator state satisfies the registry invariant. -/
theorem reach_inv (cfg : Cfg) (s : St) (h : Reach cfg s) : Inv cfg s := by
  induction h with
  | init => exact inv_init cfg
  | start u task he gt rid h hfresh ih => exact inv_startRun cfg _ u task he gt rid ih hfresh
  | gated rid tn tid args h ih => exact inv_gatedLine cfg _ rid tn tid args ih
  | exited rid h ih => exact inv_procExit cfg _ rid ih
  | stopReq rid reason h ih => exact inv_stopRun cfg _ rid reason ih
  | spawnFail rid msg h ih => exact inv_spawnErr cfg _ rid msg ih
  | timedOut rid tid h ih => exact inv_timeoutFire cfg _ rid tid ih
  | decision rid tid d h ih => exact inv_approveTool cfg _ rid tid d ih

/-- **C1** — a start request finding the registry at or above the global
ceiling, or the caller already holding an active run, fails synchronously
with an admission error, emits nothing and leaves both indexes untouched;
and over every reachable state the number of tracked runs never exceeds
the ceiling while each caller identifier owns at most one registered
run. -/
theorem claim_C1 (cfg : Cfg) :
    (∀ (s : St) (u task : String) (he : Bool) (gt : Option (List String))
        (rid : String),
      cfg.maxConcurrent ≤ s.registry.length ∨ (aget s.userActive u).isSome = true →
      (∃ e, (startRun cfg s u task he gt rid).2.2 = .error e) ∧
      (startRun cfg s u task he gt rid).1 = s ∧
      (startRun cfg s u task he gt rid).2.1 = []) ∧
    (∀ s : St, Reach cfg s →
      s.registry.length ≤ cfg.maxConcurrent ∧
      (∀ rid1 rid2 r1 r2, rid1 ∈ s.registry → rid2 ∈ s.registry →
        aget s.runObjs rid1 = some r1 → aget s.runObjs rid2 = some r2 →
        r1.userId = r2.userId → rid1 = rid2)) := by
  constructor
  · intro s u task he gt rid h
    unfold startRun
    split_ifs with h1 h2 h3 h4 h5 h6
    · exact ⟨⟨_, rfl⟩, rfl, rfl⟩
    · exact ⟨⟨_, rfl⟩, rfl, rfl⟩
    · exact ⟨⟨_, rfl⟩, rfl, rfl⟩
    · exact ⟨⟨_, rfl⟩, rfl, rfl⟩
    · exact ⟨⟨_, rfl⟩, rfl, rfl⟩
    · exact ⟨⟨_, rfl⟩, rfl, rfl⟩
    · exfalso
      rcases h with h | h
      · exact h5 h
      · exact h6 h
  · intro s hreach
    have hInv := reach_inv cfg s hreach
    refine ⟨hInv.ceiling, ?_⟩
    intro rid1 rid2 r1 r2 hm1 hm2 hr1 hr2 huser
    obtain ⟨r1', hr1', -, hua1⟩ := hInv.reg_live rid1 hm1
    obtain ⟨r2', hr2', -, hua2⟩ := hInv.reg_live rid2 hm2
    rw [hr1] at hr1'
    injection hr1' with e1
    rw [hr2] at hr2'
    injection hr2' with e2
    rw [← e1] at hua1
    rw [← e2] at hua2
    rw [huser, hua2] at hua1
    injection hua1 with e3
    exact e3.symm

/-- Witness for C1: with ceiling 0 a start request is rejected with an
admission error and the state is unchanged; the empty reachable state
respects the ceiling. -/
theorem claim_C1_witness :
    (∃ e, (startRun ⟨0, "k", ""⟩ St.init "u" "t" true none "r1").2.2 = .error e) ∧
    (startRun ⟨0, "k", ""⟩ St.init "u" "t" true none "r1").1 = St.init ∧
    St.init.registry.length ≤ (0 : Nat) := by
  have h1 := (claim_C1 ⟨0, "k", ""⟩).1 St.init "u" "t" true none "r1"
    (Or.inl (Nat.le_refl 0))
  have h2 := (claim_C1 ⟨0, "k", ""⟩).2 St.init Reach.init
  exact ⟨h1.1, h1.2.1, h2.1⟩

/-! ## Approval registration race safety: claim C4 -/

/-- Event-loop tasks that neither resolve the pending approval `tid` of
run `rid` nor terminate run `rid`; start requests reuse no existing run
identifier.  (A stop or spawn failure force-resolves the approval and the
process exit deregisters the run, so those on `rid` are the excluded
resolution/termination events.) -/
def NonInterfering (rid tid : String) : Op → Prop
  | .start _ _ _ _ rid' => rid' ≠ rid
  | .gated _ _ _ _ => True
  | .exited rid' => rid' ≠ rid
  | .stopReq rid' _ => rid' ≠ rid
  | .spawnFail rid' _ => rid' ≠ rid
  | .timedOut rid' tid' => rid' ≠ rid ∨ tid' ≠ tid
  | .decision rid' tid' _ => rid' ≠ rid ∨ tid' ≠ tid

/-- The pending approval `tid` of run `rid` is registered and visible to
the decision endpoint. -/
def PendingVisible (s : St) (rid tid : String) : Prop :=
  rid ∈ s.registry ∧
  ∃ r, aget s.runObjs rid = some r ∧ (aget r.pending tid).isSome = true

theorem cleanupRun_runObjs (s : St) (rid : String) :
    (cleanupRun s rid).1.runObjs = s.runObjs := by
  cases h : runsGet s rid <;> simp [cleanupRun, h]

theorem cleanupRun_registry_mem (s : St) (rid0 rid : String) (hne : rid ≠ rid0)
    (hmem : rid ∈ s.registry) : rid ∈ (cleanupRun s rid0).1.registry := by
  cases h : runsGet s rid0 with
  | none => simpa [cleanupRun, h] using hmem
  | some r => simp [cleanupRun, h]; exact (List.mem_erase_of_ne hne).mpr hmem

/-- A stop request on a different run keeps a pending approval visible. -/
theorem pv_stopRun (s : St) (rid tid rid' reason : String) (hne : rid' ≠ rid)
    (hpv : PendingVisible s rid tid) :
    PendingVisible (stopRun s rid' reason).1 rid tid := by
  obtain ⟨hreg, r, hr, hps⟩ := hpv
  cases hget : runsGet s rid' with
  | none =>
    rw [show (stopRun s rid' reason).1 = s by simp [stopRun, hget]]
    exact ⟨hreg, r, hr, hps⟩
  | some r' =>
    cases hend : r'.ended with
    | true =>
      rw [show (stopRun s rid' reason).1 = s by simp [stopRun, hget, hend]]
      exact ⟨hreg, r, hr, hps⟩
    | false =>
      have hstate : (stopRun s rid' reason).1 =
          (cleanupRun
            { s with
              runObjs :=
                aset s.runObjs rid'
                  (RunObj.mk r'.userId r'.gatedTools [] true) } rid').1 := by
        simp [stopRun, hget, hend]
      rw [hstate]
      refine ⟨cleanupRun_registry_mem _ _ _ (Ne.symm hne) hreg, r, ?_, hps⟩
      rw [cleanupRun_runObjs]
      show aget (aset s.runObjs rid' _) rid = some r
      rw [aget_aset_ne _ _ (Ne.symm hne)]
      exact hr

/-- Every non-interfering event-loop task keeps the pending approval
`tid` of run `rid` registered and visible. -/
theorem pv_step (cfg : Cfg) (s : St) (rid tid : String) (op : Op)
    (hni : NonInterfering rid tid op) (hpv : PendingVisible s rid tid) :
    PendingVisible (applyOp cfg s op) rid tid := by
  obtain ⟨hreg, r, hr, hps⟩ := hpv
  cases op with
  | start u task he' gt rid' =>
    replace hni : rid' ≠ rid := hni
    show PendingVisible (startRun cfg s u task he' gt rid').1 rid tid
    unfold startRun
    split_ifs
    · exact ⟨hreg, r, hr, hps⟩
    · exact ⟨hreg, r, hr, hps⟩
    · exact ⟨hreg, r, hr, hps⟩
    · exact ⟨hreg, r, hr, hps⟩
    · exact ⟨hreg, r, hr, hps⟩
    · exact ⟨hreg, r, hr, hps⟩
    · exact ⟨List.mem_cons_of_mem _ hreg, r,
        by rw [aget_aset_ne _ _ (Ne.symm hni)]; exact hr, hps⟩
  | gated rid' tn tid' args =>
    show PendingVisible (gatedLine s rid' tn tid' args).1 rid tid
    cases hget : aget s.runObjs rid' with
    | none =>
      rw [show (gatedLine s rid' tn tid' args).1 = s by simp [gatedLine, hget]]
      exact ⟨hreg, r, hr, hps⟩
    | some r' =>
      by_cases hg : normalizeToolName tn ∈ r'.gatedTools
      · have hstate : (gatedLine s rid' tn tid' args).1 =
            { s with
              runObjs :=
                aset s.runObjs rid'
                  (RunObj.mk r'.userId r'.gatedTools
                    (aset r'.pending tid' ⟨normalizeToolName tn, args⟩) r'.ended) } := by
          simp [gatedLine, hget, hg]
        rw [hstate]
        by_cases hrr : rid' = rid
        · subst hrr
          rw [hr] at hget
          injection hget with h0
          subst h0
          refine ⟨hreg, _, aget_aset_self _ _ _, ?_⟩
          by_cases htt : tid' = tid
          · subst htt
            show (aget (aset r.pending tid' _) tid').isSome = true
            rw [aget_aset_self]
            rfl
          · show (aget (aset r.pending tid' _) tid).isSome = true
            rw [aget_aset_ne _ _ (Ne.symm htt)]
            exact hps
        · exact ⟨hreg, r, by rw [aget_aset_ne _ _ (fun h => hrr h.symm)]; exact hr, hps⟩
      · rw [show (gatedLine s rid' tn tid' args).1 = s by simp [gatedLine, hget, hg]]
        exact ⟨hreg, r, hr, hps⟩
  | exited rid' =>
    replace hni : rid' ≠ rid := hni
    show PendingVisible (procExit s rid').1 rid tid
    cases hget : aget s.runObjs rid' with
    | none =>
      rw [show (procExit s rid').1 = s by simp [procExit, hget]]
      exact ⟨hreg, r, hr, hps⟩
    | some r' =>
      cases hend : r'.ended with
      | true =>
        rw [show (procExit s rid').1 = s by simp [procExit, hget, hend]]
        exact ⟨hreg, r, hr, hps⟩
      | false =>
        have hstate : (procExit s rid').1 =
            (cleanupRun
              { s with
                runObjs :=
                  aset s.runObjs rid'
                    (RunObj.mk r'.userId r'.gatedTools r'.pending true) } rid').1 := by
          simp [procExit, hget, hend]
        rw [hstate]
        refine ⟨cleanupRun_registry_mem _ _ _ (Ne.symm hni) hreg, r, ?_, hps⟩
        rw [cleanupRun_runObjs]
        show aget (aset s.runObjs rid' _) rid = some r
        rw [aget_aset_ne _ _ (Ne.symm hni)]
        exact hr
  | stopReq rid' reason =>
    exact pv_stopRun s rid tid rid' reason hni ⟨hreg, r, hr, hps⟩
  | spawnFail rid' msg =>
    exact pv_stopRun s rid tid rid' "spawn_error" hni ⟨hreg, r, hr, hps⟩
  | timedOut rid' tid' =>
    show PendingVisible (timeoutFire s rid' tid').1 rid tid
    cases hget : aget s.runObjs rid' with
    | none =>
      rw [show (timeoutFire s rid' tid').1 = s by simp [timeoutFire, hget]]
      exact ⟨hreg, r, hr, hps⟩
    | some r' =>
      cases hp : aget r'.pending tid' with
      | none =>
        rw [show (timeoutFire s rid' tid').1 = s by simp [timeoutFire, hget, hp]]
        exact ⟨hreg, r, hr, hps⟩
      | some info =>
        have hstate : (timeoutFire s rid' tid').1 =
            { s with
              runObjs :=
                aset s.runObjs rid'
                  (RunObj.mk r'.userId r'.gatedTools (adel r'.pending tid') r'.ended) } := by
          simp [timeoutFire, hget, hp]
        rw [hstate]
        by_cases hrr : rid' = rid
        · subst hrr
          rw [hr] at hget
          injection hget with h0
          subst h0
          have htt : tid' ≠ tid := by
            rcases hni with h | h
            · exact absurd rfl h
            · exact h
          refine ⟨hreg, _, aget_aset_self _ _ _, ?_⟩
          show (aget (adel r.pending tid') tid).isSome = true
          rw [aget_adel_ne _ (Ne.symm htt)]
          exact hps
        · exact ⟨hreg, r,
            by rw [aget_aset_ne _ _ (fun h => hrr h.symm)]; exact hr, hps⟩
  | decision rid' tid' d =>
    show PendingVisible (approveTool s rid' tid' d).1 rid tid
    cases hget : runsGet s rid' with
    | none =>
      rw [show (approveTool s rid' tid' d).1 = s by simp [approveTool, hget]]
      exact ⟨hreg, r, hr, hps⟩
    | some r' =>
      cases hp : aget r'.pending tid' with
      | none =>
        rw [show (approveTool s rid' tid' d).1 = s by simp [approveTool, hget, hp]]
        exact ⟨hreg, r, hr, hps⟩
      | some info =>
        have hstate : (approveTool s rid' tid' d).1 =
            { s with
              runObjs :=
                aset s.runObjs rid'
                  (RunObj.mk r'.userId r'.gatedTools (adel r'.pending tid') r'.ended) } := by
          simp [approveTool, hget, hp]
        rw [hstate]
        have hr'0 : aget s.runObjs rid' = some r' := by
          by_cases hmem : rid' ∈ s.registry
          · simpa [runsGet, hmem] using hget
          · simp [runsGet, hmem] at hget
        by_cases hrr : rid' = rid
        · subst hrr
          rw [hr] at hr'0
          injection hr'0 with h0
          subst h0
          have htt : tid' ≠ tid := by
            rcases hni with h | h
            · exact absurd rfl h
            · exact h
          refine ⟨hreg, _, aget_aset_self _ _ _, ?_⟩
          show (aget (adel r.pending tid') tid).isSome = true
          rw [aget_adel_ne _ (Ne.symm htt)]
          exact hps
        · exact ⟨hreg, r,
            by rw [aget_aset_ne _ _ (fun h => hrr h.symm)]; exact hr, hps⟩

/-- Non-interfering interleavings keep the pending approval visible. -/
theorem pv_runOps (cfg : Cfg) (s : St) (rid tid : String) (ops : List Op)
    (hni : ∀ op ∈ ops, NonInterfering rid tid op)
    (hpv : PendingVisible s rid tid) :
    PendingVisible (runOps cfg s ops) rid tid := by
  induction ops generalizing s with
  | nil => exact hpv
  | cons op ops ih =>
    exact ih (applyOp cfg s op)
      (fun o ho => hni o (List.mem_cons_of_mem _ ho))
      (pv_step cfg s rid tid op (hni op (List.mem_cons_self _ _)) hpv)

/-- **C4** — when a gated tool-use with call identifier `tid` is detected,
the pending entry is registered (and visible to the decision endpoint)
strictly before the approval-request event is emitted: the step's trace is
exactly `event`, then `registered`, then `approval`; consequently a
decision for `tid` issued at any later point — across any interleaving of
event-loop tasks that neither resolve this approval nor terminate this
run — resolves successfully and never fails with `not_pending`. -/
theorem claim_C4 (cfg : Cfg) (s : St) (rid toolName tid : String) (args : JVal)
    (r : RunObj) (hreg : rid ∈ s.registry) (hr : aget s.runObjs rid = some r)
    (hg : normalizeToolName toolName ∈ r.gatedTools) :
    ((gatedLine s rid toolName tid args).2 =
      [.event rid, .registered rid tid, .approvalReq rid tid]) ∧
    PendingVisible (gatedLine s rid toolName tid args).1 rid tid ∧
    (∀ ops : List Op, (∀ op ∈ ops, NonInterfering rid tid op) → ∀ d : String,
      (approveTool (runOps cfg (gatedLine s rid toolName tid args).1 ops)
        rid tid d).2.2 = .ok) := by
  have hstate : (gatedLine s rid toolName tid args).1 =
      { s with
        runObjs :=
          aset s.runObjs rid
            (RunObj.mk r.userId r.gatedTools
              (aset r.pending tid ⟨normalizeToolName toolName, args⟩) r.ended) } := by
    simp [gatedLine, hr, hg]
  have hpv : PendingVisible (gatedLine s rid toolName tid args).1 rid tid := by
    rw [hstate]
    refine ⟨hreg, _, aget_aset_self _ _ _, ?_⟩
    show (aget (aset r.pending tid _) tid).isSome = true
    rw [aget_aset_self]
    rfl
  refine ⟨by simp [gatedLine, hr, hg], hpv, ?_⟩
  intro ops hni d
  obtain ⟨hreg', r', hr', hps'⟩ :=
    pv_runOps cfg (gatedLine s rid toolName tid args).1 rid tid ops hni hpv
  obtain ⟨info, hinfo⟩ := Option.isSome_iff_exists.mp hps'
  simp [approveTool, runsGet, hreg', hr', hinfo]

/-- Witness for C4: after detecting a gated `run_shell_command` call
`t1`, two unrelated tasks (another gated call and another run's timeout)
run, and a decision for `t1` still resolves successfully. -/
theorem claim_C4_witness :
    ((gatedLine ⟨[("r1", ⟨"u1", defaultGatedTools, [], false⟩)], ["r1"],
        [("u1", "r1")]⟩ "r1" "run_shell_command" "t1" .null).2 =
      [.event "r1", .registered "r1" "t1", .approvalReq "r1" "t1"]) ∧
    (approveTool
      (runOps ⟨2, "k", ""⟩
        (gatedLine ⟨[("r1", ⟨"u1", defaultGatedTools, [], false⟩)], ["r1"],
          [("u1", "r1")]⟩ "r1" "run_shell_command" "t1" .null).1
        [.gated "r1" "web_fetch" "t2" .null, .timedOut "r1" "t2"])
      "r1" "t1" "approve").2.2 = .ok := by
  have h := claim_C4 ⟨2, "k", ""⟩
    ⟨[("r1", ⟨"u1", defaultGatedTools, [], false⟩)], ["r1"], [("u1", "r1")]⟩
    "r1" "run_shell_command" "t1" .null
    ⟨"u1", defaultGatedTools, [], false⟩ (by simp) rfl (by decide)
  refine ⟨h.1, h.2.2 [.gated "r1" "web_fetch" "t2" .null, .timedOut "r1" "t2"]
    ?_ "approve"⟩
  intro op hop
  rcases List.mem_cons.mp hop with rfl | hop
  · trivial
  · rcases List.mem_singleton.mp hop with rfl
    exact Or.inr (by decide)

/-! ## Sanitizer string lemmas (towards claims C7, C8, C10) -/

theorem lpref_length (p l : List Char) (h : lpref p l = true) :
    p.length ≤ l.length := by
  induction p generalizing l with
  | nil => simp
  | cons a p ih =>
    cases l with
    | nil => simp [lpref] at h
    | cons b l =>
      simp [lpref] at h
      simpa using ih l h.2

/-- On a list shorter than the pattern window the replacement scan moves
one character at a time. -/
theorem replGemini_cons_short (c : Char) (cs : List Char)
    (hshort : ∀ (c2 c3 c4 c5 c6 : Char) (rest : List Char),
      cs = c2 :: c3 :: c4 :: c5 :: c6 :: rest → False) :
    replGemini (c :: cs) = c :: replGemini cs := by
  rcases cs with _ | ⟨a, _ | ⟨b, _ | ⟨d, _ | ⟨e, _ | ⟨f, t⟩⟩⟩⟩⟩
  · rfl
  · rfl
  · rfl
  · rfl
  · rfl
  · exact absurd rfl (hshort a b d e f t)

theorem hasGem_cons_of_ne (c : Char) (t : List Char) (hc : c.toLower ≠ 'g') :
    hasGem (c :: t) = hasGem t := by
  have hfalse : lpref gemPat (c :: t) = false := by
    cases hl : lpref gemPat (c :: t)
    · rfl
    · exfalso
      simp [gemPat, lpref] at hl
      exact hc hl.1
  simp [hasGem, hfalse]

/-- No character of the replacement text lowers to `g`, so prepending it
cannot create a brand occurrence. -/
theorem hasGem_brand (r : List Char) : hasGem (brandRepl ++ r) = hasGem r := by
  simp only [brandRepl, List.cons_append, List.nil_append]
  rw [hasGem_cons_of_ne 'C' _ (by decide), hasGem_cons_of_ne 'o' _ (by decide),
    hasGem_cons_of_ne 'd' _ (by decide), hasGem_cons_of_ne 'e' _ (by decide),
    hasGem_cons_of_ne 'M' _ (by decide), hasGem_cons_of_ne 'a' _ (by decide),
    hasGem_cons_of_ne 'x' _ (by decide), hasGem_cons_of_ne ' ' _ (by decide),
    hasGem_cons_of_ne 'D' _ (by decide), hasGem_cons_of_ne 'e' _ (by decide),
    hasGem_cons_of_ne 'v' _ (by decide)]

/-- A case-insensitive pattern free of the character `c` that matches a
prefix of the replacement output also matches a prefix of the input: the
replacement text starts with `C`, so a partial match can never continue
into it. -/
theorem lpref_replGemini (p : List Char) (hp : ∀ x ∈ p, x ≠ 'c')
    (cs : List Char) (h : lpref p (replGemini cs) = true) :
    lpref p cs = true := by
  induction cs using replGemini.induct generalizing p with
  | case1 c1 c2 c3 c4 c5 c6 rest hm ih =>
    rw [show replGemini (c1 :: c2 :: c3 :: c4 :: c5 :: c6 :: rest) =
        brandRepl ++ replGemini rest from by simp [replGemini, hm]] at h
    cases p with
    | nil => rfl
    | cons a p' =>
      exfalso
      rw [show brandRepl ++ replGemini rest =
          'C' :: (['o', 'd', 'e', 'M', 'a', 'x', ' ', 'D', 'e', 'v'] ++
            replGemini rest) from rfl] at h
      simp [lpref] at h
      exact hp a (by simp) h.1.symm
  | case2 c1 c2 c3 c4 c5 c6 rest hm ih =>
    rw [show replGemini (c1 :: c2 :: c3 :: c4 :: c5 :: c6 :: rest) =
        c1 :: replGemini (c2 :: c3 :: c4 :: c5 :: c6 :: rest) from
      by simp [replGemini, hm]] at h
    cases p with
    | nil => rfl
    | cons a p' =>
      simp [lpref] at h ⊢
      exact ⟨h.1, ih p' (fun x hx => hp x (by simp [hx])) h.2⟩
  | case3 c cs hshort ih =>
    rw [replGemini_cons_short c cs hshort] at h
    cases p with
    | nil => rfl
    | cons a p' =>
      simp [lpref] at h ⊢
      exact ⟨h.1, ih p' (fun x hx => hp x (by simp [hx])) h.2⟩
  | case4 =>
    cases p with
    | nil => rfl
    | cons a p' => simp [lpref, replGemini] at h

/-- The output of the brand replacement contains no brand occurrence. -/
theorem hasGem_replGemini (l : List Char) : hasGem (replGemini l) = false := by
  induction l using replGemini.induct with
  | case1 c1 c2 c3 c4 c5 c6 rest hm ih =>
    rw [show replGemini (c1 :: c2 :: c3 :: c4 :: c5 :: c6 :: rest) =
        brandRepl ++ replGemini rest from by simp [replGemini, hm]]
    rw [hasGem_brand]
    exact ih
  | case2 c1 c2 c3 c4 c5 c6 rest hm ih =>
    rw [show replGemini (c1 :: c2 :: c3 :: c4 :: c5 :: c6 :: rest) =
        c1 :: replGemini (c2 :: c3 :: c4 :: c5 :: c6 :: rest) from
      by simp [replGemini, hm]]
    cases hl : lpref gemPat
        (c1 :: replGemini (c2 :: c3 :: c4 :: c5 :: c6 :: rest)) with
    | false => simp [hasGem, hl, ih]
    | true =>
      exfalso
      have h1 : c1.toLower = 'g' ∧
          lpref ['e', 'm', 'i', 'n', 'i']
            (replGemini (c2 :: c3 :: c4 :: c5 :: c6 :: rest)) = true := by
        simpa [gemPat, lpref] using hl
      have h2 := lpref_replGemini ['e', 'm', 'i', 'n', 'i'] (by decide) _ h1.2
      apply hm
      simp [gemPat, lpref, h1.1]
      simpa [lpref] using h2
  | case3 c cs hshort ih =>
    rw [replGemini_cons_short c cs hshort]
    cases hl : lpref gemPat (c :: replGemini cs) with
    | false => simp [hasGem, hl, ih]
    | true =>
      exfalso
      have h1 : c.toLower = 'g' ∧
          lpref ['e', 'm', 'i', 'n', 'i'] (replGemini cs) = true := by
        simpa [gemPat, lpref] using hl
      have h2 := lpref_replGemini ['e', 'm', 'i', 'n', 'i'] (by decide) _ h1.2
      have hlen := lpref_length _ _ h2
      have hshort' : cs.length < 5 := by
        rcases cs with _ | ⟨a, _ | ⟨b, _ | ⟨d, _ | ⟨e, _ | ⟨f, t⟩⟩⟩⟩⟩
        · simp
        · simp
        · simp
        · simp
        · simp
        · exact absurd rfl (hshort a b d e f t)
      simp at hlen
      omega
  | case4 => rfl

/-- The brand replacement is the identity on brand-free text. -/
theorem replGemini_of_no_gem (l : List Char) (h : hasGem l = false) :
    replGemini l = l := by
  induction l using replGemini.induct with
  | case1 c1 c2 c3 c4 c5 c6 rest hm ih =>
    exfalso
    simp [hasGem, hm] at h
  | case2 c1 c2 c3 c4 c5 c6 rest hm ih =>
    rw [show replGemini (c1 :: c2 :: c3 :: c4 :: c5 :: c6 :: rest) =
        c1 :: replGemini (c2 :: c3 :: c4 :: c5 :: c6 :: rest) from
      by simp [replGemini, hm]]
    rw [show hasGem (c1 :: c2 :: c3 :: c4 :: c5 :: c6 :: rest) =
        (lpref gemPat (c1 :: c2 :: c3 :: c4 :: c5 :: c6 :: rest) ||
          hasGem (c2 :: c3 :: c4 :: c5 :: c6 :: rest)) from rfl] at h
    rw [ih (Bool.or_eq_false_iff.mp h).2]
  | case3 c cs hshort ih =>
    rw [replGemini_cons_short c cs hshort]
    rw [show hasGem (c :: cs) = (lpref gemPat (c :: cs) || hasGem cs) from rfl] at h
    rw [ih (Bool.or_eq_false_iff.mp h).2]
  | case4 => rfl

theorem replGemini_idem (l : List Char) :
    replGemini (replGemini l) = replGemini l :=
  replGemini_of_no_gem _ (hasGem_replGemini l)

theorem scrubString_idem (s : String) :
    scrubString (scrubString s) = scrubString s := by
  simp [scrubString, replGemini_idem]

/-- The per-entry action of `scrubValue` on one object binding (named for
the lemmas below; `scrubGo_obj` shows it is definitionally the loop body
of the source). -/
def scrubEntry (n : Nat) (kv : String × JVal) : Option (String × JVal) :=
  if looksSensitiveKey kv.1 then none
  else if kv.1 = "model" then some (kv.1, .str "codemax-dev")
  else some (kv.1, scrubGo n kv.2)

theorem scrubGo_obj (n : Nat) (kvs : List (String × JVal)) :
    scrubGo (n + 1) (.obj kvs) = .obj (kvs.filterMap (scrubEntry n)) := rfl

/-- Sanitization is idempotent at every fuel level. -/
theorem scrubGo_idem (n : Nat) : ∀ v : JVal, scrubGo n (scrubGo n v) = scrubGo n v := by
  induction n with
  | zero => intro v; rfl
  | succ n ih =>
    intro v
    cases v with
    | null => rfl
    | bool b => rfl
    | num m => rfl
    | str s => simp [scrubGo, scrubString_idem]
    | arr xs =>
      simp only [scrubGo]
      congr 1
      rw [List.take_of_length_le (by simp)]
      rw [List.map_map]
      refine List.map_congr_left ?_
      intro a _
      exact ih a
    | obj kvs =>
      rw [scrubGo_obj, scrubGo_obj]
      congr 1
      induction kvs with
      | nil => rfl
      | cons kv t iht =>
        by_cases hs : looksSensitiveKey kv.1
        · have e1 : scrubEntry n kv = none := by simp [scrubEntry, hs]
          rw [List.filterMap_cons_none e1]
          exact iht
        · by_cases hm : kv.1 = "model"
          · have e1 : scrubEntry n kv = some (kv.1, .str "codemax-dev") := by
              simp [scrubEntry, hm,
                show looksSensitiveKey "model" = false from by decide]
            have e2 : scrubEntry n (kv.1, .str "codemax-dev") =
                some (kv.1, .str "codemax-dev") := by
              simp [scrubEntry, hm,
                show looksSensitiveKey "model" = false from by decide]
            rw [List.filterMap_cons_some e1, List.filterMap_cons_some e2, iht]
          · have e1 : scrubEntry n kv = some (kv.1, scrubGo n kv.2) := by
              simp [scrubEntry, hs, hm]
            have e2 : scrubEntry n (kv.1, scrubGo n kv.2) =
                some (kv.1, scrubGo n (scrubGo n kv.2)) := by
              simp [scrubEntry, hs, hm]
            rw [List.filterMap_cons_some e1, List.filterMap_cons_some e2, iht, ih kv.2]

/-- The residual transformation the spec's round-trip property allows,
stated from the spec's words: ordered collections are truncated to their
first 200 elements, values beyond the depth ceiling are left unmodified,
and nothing else changes. -/
def truncGo : Nat → JVal → JVal
  | 0, v => v
  | n + 1, v =>
    match v with
    | .arr xs => .arr ((xs.take 200).map (truncGo n))
    | .obj kvs => .obj (kvs.map fun kv => (kv.1, truncGo n kv.2))
    | v => v

/-- Payloads clean to the depth/truncation horizon: within the depth
ceiling and the first 200 elements of every ordered collection there is
no secret-shaped key, no key literally named `model`, and no brand token
in any text. -/
def cleanGo : Nat → JVal → Bool
  | 0, _ => true
  | n + 1, v =>
    match v with
    | .str s => !hasGem s.data
    | .arr xs => (xs.take 200).all (cleanGo n)
    | .obj kvs =>
      kvs.all fun kv =>
        !looksSensitiveKey kv.1 && decide (kv.1 ≠ "model") && cleanGo n kv.2
    | _ => true

/-- Clean object entries are mapped by the sanitizer loop to their
recursed values with keys untouched. -/
theorem filterMap_scrubEntry_clean (n : Nat)
    (ihv : ∀ v : JVal, cleanGo n v = true → scrubGo n v = truncGo n v)
    (kvs : List (String × JVal))
    (hall : ∀ kv ∈ kvs, looksSensitiveKey kv.1 = false ∧ kv.1 ≠ "model" ∧
      cleanGo n kv.2 = true) :
    kvs.filterMap (scrubEntry n) = kvs.map fun kv => (kv.1, truncGo n kv.2) := by
  induction kvs with
  | nil => rfl
  | cons kv t iht =>
    obtain ⟨hs, hm, hcv⟩ := hall kv (List.mem_cons_self _ _)
    have e1 : scrubEntry n kv = some (kv.1, scrubGo n kv.2) := by
      simp [scrubEntry, hs, hm]
    rw [List.filterMap_cons_some e1, List.map_cons,
      iht fun kv' hkv' => hall kv' (List.mem_cons_of_mem _ hkv'),
      ihv kv.2 hcv]

/-- On clean payloads sanitization acts as pure truncation. -/
theorem scrubGo_clean (n : Nat) :
    ∀ v : JVal, cleanGo n v = true → scrubGo n v = truncGo n v := by
  induction n with
  | zero => intro v _; rfl
  | succ n ih =>
    intro v hc
    cases v with
    | null => rfl
    | bool b => rfl
    | num m => rfl
    | str s =>
      have hng : hasGem s.data = false := by
        simpa [cleanGo] using hc
      show JVal.str (scrubString s) = JVal.str s
      rw [scrubString, replGemini_of_no_gem _ hng]
    | arr xs =>
      have hall : ∀ x ∈ xs.take 200, cleanGo n x = true := by
        rw [show cleanGo (n + 1) (.arr xs) = (xs.take 200).all (cleanGo n)
          from rfl] at hc
        exact List.all_eq_true.mp hc
      show JVal.arr ((xs.take 200).map (scrubGo n)) =
        JVal.arr ((xs.take 200).map (truncGo n))
      congr 1
      exact List.map_congr_left fun x hx => ih x (hall x hx)
    | obj kvs =>
      have hall : ∀ kv ∈ kvs, looksSensitiveKey kv.1 = false ∧ kv.1 ≠ "model" ∧
          cleanGo n kv.2 = true := by
        rw [show cleanGo (n + 1) (.obj kvs) = kvs.all (fun kv =>
          !looksSensitiveKey kv.1 && decide (kv.1 ≠ "model") && cleanGo n kv.2)
          from rfl] at hc
        intro kv hkv
        have h := List.all_eq_true.mp hc kv hkv
        simp only [Bool.and_eq_true, Bool.not_eq_true', decide_eq_true_eq] at h
        exact ⟨h.1.1, h.1.2, h.2⟩
      rw [scrubGo_obj]
      show JVal.obj (kvs.filterMap (scrubEntry n)) =
        JVal.obj (kvs.map fun kv => (kv.1, truncGo n kv.2))
      congr 1
      exact filterMap_scrubEntry_clean n ih kvs hall

/-- The bindings of an object value (empty for non-objects). -/
def objEntries : JVal → List (String × JVal)
  | .obj kvs => kvs
  | _ => []

/-- **C7** — sanitizing the spec's example drops `api_key` and the nested
`password` and rewrites `model` to the public alias `codemax-dev`; in
general, within the depth ceiling a sanitized object retains no key
matching the sensitive pattern, every surviving key named `model` carries
the alias value, and every input `model` key survives as the alias
binding. -/
theorem claim_C7 :
    (scrubValue (.obj [("api_key", .str "X"),
        ("nested", .obj [("password", .str "Y")]),
        ("model", .str "gpt-oss:120b")]) 0 =
      .obj [("nested", .obj []), ("model", .str "codemax-dev")]) ∧
    (∀ (kvs : List (String × JVal)) (d : Nat), d ≤ 6 →
      (∀ kv ∈ objEntries (scrubValue (.obj kvs) d),
        looksSensitiveKey kv.1 = false ∧
        (kv.1 = "model" → kv.2 = .str "codemax-dev")) ∧
      (∀ v, ("model", v) ∈ kvs →
        ("model", .str "codemax-dev") ∈ objEntries (scrubValue (.obj kvs) d))) := by
  refine ⟨rfl, ?_⟩
  intro kvs d hd
  have hfuel : 7 - d = (6 - d) + 1 := by omega
  rw [scrubValue, hfuel, scrubGo_obj]
  constructor
  · intro kv hkv
    obtain ⟨a, ha, hfa⟩ := List.mem_filterMap.mp hkv
    by_cases hs : looksSensitiveKey a.1
    · rw [show scrubEntry (6 - d) a = none from by simp [scrubEntry, hs]] at hfa
      exact absurd hfa (by simp)
    · by_cases hm : a.1 = "model"
      · rw [show scrubEntry (6 - d) a = some (a.1, .str "codemax-dev") from
          by simp [scrubEntry, hm,
            show looksSensitiveKey "model" = false from by decide]] at hfa
        injection hfa with h0
        rw [← h0]
        exact ⟨by simpa [hm] using hs, fun _ => rfl⟩
      · rw [show scrubEntry (6 - d) a = some (a.1, scrubGo (6 - d) a.2) from
          by simp [scrubEntry, hs, hm]] at hfa
        injection hfa with h0
        rw [← h0]
        exact ⟨by simpa using hs, fun hc => absurd hc hm⟩
  · intro v hv
    exact List.mem_filterMap.mpr ⟨("model", v), hv,
      by simp [scrubEntry, show looksSensitiveKey "model" = false from by decide]⟩

/-- Witness for C7's general part at a concrete object and depth. -/
theorem claim_C7_witness :
    (∀ kv ∈ objEntries (scrubValue
        (.obj [("password", .str "p"), ("model", .str "gpt")]) 3),
      looksSensitiveKey kv.1 = false ∧
      (kv.1 = "model" → kv.2 = .str "codemax-dev")) ∧
    ("model", .str "codemax-dev") ∈ objEntries (scrubValue
      (.obj [("password", .str "p"), ("model", .str "gpt")]) 3) := by
  have h := claim_C7.2 [("password", .str "p"), ("model", .str "gpt")] 3
    (by omega)
  exact ⟨h.1, h.2 (.str "gpt") (by simp)⟩

/-- **C10** — within the depth ceiling a key survives sanitization iff its
lower-cased name does not end with one of `api_key`/`apikey`, `token`,
`authorization`, `secret`, `password`, `headers`, `env`; a surviving key
other than `model` keeps its value, with sanitization recursing into it at
the next depth. -/
theorem claim_C10 (kvs : List (String × JVal)) (d : Nat) (hd : d ≤ 6)
    (k : String) (v : JVal) (hmem : (k, v) ∈ kvs) :
    ((∃ w, (k, w) ∈ objEntries (scrubValue (.obj kvs) d)) ↔
      (["api_key", "apikey", "token", "authorization", "secret", "password",
        "headers", "env"].any fun w => w.data.isSuffixOf (jsLower k).data) = false) ∧
    ((["api_key", "apikey", "token", "authorization", "secret", "password",
        "headers", "env"].any fun w => w.data.isSuffixOf (jsLower k).data) = false →
      k ≠ "model" →
      (k, scrubValue v (d + 1)) ∈ objEntries (scrubValue (.obj kvs) d)) := by
  have hkey : (["api_key", "apikey", "token", "authorization", "secret",
      "password", "headers", "env"].any fun w =>
        w.data.isSuffixOf (jsLower k).data) = looksSensitiveKey k := rfl
  have hfuel : 7 - d = (6 - d) + 1 := by omega
  have hfuel2 : 7 - (d + 1) = 6 - d := by omega
  rw [hkey, scrubValue, scrubValue, hfuel, hfuel2, scrubGo_obj]
  constructor
  · constructor
    · rintro ⟨w, hw⟩
      obtain ⟨a, ha, hfa⟩ := List.mem_filterMap.mp hw
      by_cases hs : looksSensitiveKey a.1
      · rw [show scrubEntry (6 - d) a = none from by simp [scrubEntry, hs]] at hfa
        exact absurd hfa (by simp)
      · have hk : a.1 = k := by
          by_cases hm : a.1 = "model"
          · rw [show scrubEntry (6 - d) a = some (a.1, .str "codemax-dev") from
              by simp [scrubEntry, hm,
                show looksSensitiveKey "model" = false from by decide]] at hfa
            injection hfa with h0
            exact congrArg Prod.fst h0
          · rw [show scrubEntry (6 - d) a = some (a.1, scrubGo (6 - d) a.2) from
              by simp [scrubEntry, hs, hm]] at hfa
            injection hfa with h0
            exact congrArg Prod.fst h0
        rw [← hk]
        simpa using hs
    · intro hs
      by_cases hm : k = "model"
      · exact ⟨.str "codemax-dev", List.mem_filterMap.mpr ⟨(k, v), hmem,
          by simp [scrubEntry, hm,
            show looksSensitiveKey "model" = false from by decide]⟩⟩
      · exact ⟨scrubGo (6 - d) v, List.mem_filterMap.mpr ⟨(k, v), hmem,
          by simp [scrubEntry, hs, hm]⟩⟩
  · intro hs hm
    exact List.mem_filterMap.mpr ⟨(k, v), hmem, by simp [scrubEntry, hs, hm]⟩

/-- Witness for C10: `token_value`, `secrets` and `api_key_2` survive with
their values recursed into, while `my_token` is dropped. -/
theorem claim_C10_witness :
    ("token_value", .str "a") ∈ objEntries (scrubValue
      (.obj [("token_value", .str "a"), ("secrets", .str "b"),
        ("api_key_2", .str "c"), ("my_token", .str "d")]) 0) ∧
    ("secrets", .str "b") ∈ objEntries (scrubValue
      (.obj [("token_value", .str "a"), ("secrets", .str "b"),
        ("api_key_2", .str "c"), ("my_token", .str "d")]) 0) ∧
    ("api_key_2", .str "c") ∈ objEntries (scrubValue
      (.obj [("token_value", .str "a"), ("secrets", .str "b"),
        ("api_key_2", .str "c"), ("my_token", .str "d")]) 0) ∧
    ¬ (∃ w, ("my_token", w) ∈ objEntries (scrubValue
      (.obj [("token_value", .str "a"), ("secrets", .str "b"),
        ("api_key_2", .str "c"), ("my_token", .str "d")]) 0)) := by
  refine ⟨?_, ?_, ?_, ?_⟩
  · exact (claim_C10 _ 0 (by omega) "token_value" (.str "a") (by simp)).2
      (by decide) (by decide)
  · exact (claim_C10 _ 0 (by omega) "secrets" (.str "b") (by simp)).2
      (by decide) (by decide)
  · exact (claim_C10 _ 0 (by omega) "api_key_2" (.str "c") (by simp)).2
      (by decide) (by decide)
  · intro hex
    have h := (claim_C10 _ 0 (by omega) "my_token" (.str "d") (by simp)).1.mp hex
    exact absurd h (by decide)

/-- Counterexample to C8 as stated: `{ model: "x" }` contains no
secret-shaped key and no brand token, has no ordered collection and
nothing beyond the depth ceiling, yet sanitization rewrites the `model`
value, so the result is not the input (whose truncation is itself). -/
theorem claim_C8_counterexample :
    looksSensitiveKey "model" = false ∧
    hasGem "x".data = false ∧
    truncGo 7 (.obj [("model", .str "x")]) = .obj [("model", .str "x")] ∧
    sanitizeEvent (.obj [("model", .str "x")]) ≠
      .obj [("model", .str "x")] := by
  refine ⟨by decide, by decide, rfl, ?_⟩
  intro h
  rw [show sanitizeEvent (.obj [("model", .str "x")]) =
      .obj [("model", .str "codemax-dev")] from rfl] at h
  simp at h

/-- **C8 (amended)** — sanitization is idempotent; and every value that
(within the depth ceiling and the 200-element truncation horizon)
contains no secret-shaped key, no key literally named `model`, and no
occurrence of the brand token sanitizes to exactly its truncation:
ordered collections cut to their first 200 elements, values beyond the
depth ceiling unmodified, everything else unchanged.  The `model`-key
exclusion is the one correction forced by the counterexample. -/
theorem claim_C8_amended :
    (∀ v : JVal, sanitizeEvent (sanitizeEvent v) = sanitizeEvent v) ∧
    (∀ v : JVal, cleanGo 7 v = true → sanitizeEvent v = truncGo 7 v) :=
  ⟨fun v => scrubGo_idem 7 v, fun v hc => scrubGo_clean 7 v hc⟩

/-- Witness for C8 (amended): idempotence on a payload that does need
scrubbing, and the truncation round-trip on a clean payload. -/
theorem claim_C8_witness :
    (sanitizeEvent (sanitizeEvent
        (.obj [("a", .str "gemini"), ("api_key", .null)])) =
      sanitizeEvent (.obj [("a", .str "gemini"), ("api_key", .null)])) ∧
    (sanitizeEvent (.obj [("a", .str "hello"), ("xs", .arr [.num 1])]) =
      truncGo 7 (.obj [("a", .str "hello"), ("xs", .arr [.num 1])])) :=
  ⟨claim_C8_amended.1 _, claim_C8_amended.2 _ (by decide)⟩

end CodeMax
